import Mathlib

/-!
Verification of the porm repository: a shallow embedding of the condition
compiler (`porm/parsers/mysql.py`), the chained condition builder
(`porm/conditions/mysql.py`), and the connection/transaction facade
(`porm/databases/api/__init__.py`), together with theorems settling the
spec claims about them.

Python values that flow through the parsers are modelled by `PyVal`
(strings, integers and `None`); dictionaries by insertion-ordered
association lists with Python's overwrite-on-existing-key semantics;
fallible code by `Except PyErr`.
-/

namespace Porm

/-- Model of the Python values that appear in filter terms: `None`,
strings and integers. -/
inductive PyVal : Type
  | vNone : PyVal
  | vStr : String → PyVal
  | vInt : Int → PyVal
  deriving DecidableEq, Repr

/-- Python truthiness (`if term:`): `None`, `""` and `0` are falsy. -/
def pyTruthy : PyVal → Bool
  | .vNone => false
  | .vStr s => !s.isEmpty
  | .vInt n => n != 0

/-- Python `str()` of a value, as used by `u"%{}%".format(kw)`. -/
def pyFormat : PyVal → String
  | .vNone => "None"
  | .vStr s => s
  | .vInt n => toString n

/-- Insertion-ordered dictionary, the model of Python `dict`. -/
abbrev PyDict : Type := List (String × PyVal)

/-- Python `d[k] = v`: overwrite in place when the key exists, else append. -/
def dictInsert : PyDict → String → PyVal → PyDict
  | [], k, v => [(k, v)]
  | (k0, v0) :: rest, k, v =>
    if k0 = k then (k0, v) :: rest else (k0, v0) :: dictInsert rest k v

/-- Lookup in the dictionary model. -/
def dictLookup : PyDict → String → Option PyVal
  | [], _ => none
  | (k0, v0) :: rest, k => if k0 = k then some v0 else dictLookup rest k

/-- The keys of a dictionary, in insertion order. -/
def dictKeys (d : PyDict) : List String := d.map Prod.fst

/-- Python `sep.join(list_of_strings)`. -/
def strJoin (sep : String) : List String → String
  | [] => ""
  | [x] => x
  | x :: xs => x ++ sep ++ strJoin sep xs

/-- Python `sep.join(a_string)`: the characters of the string joined by
the separator (used by `self.sid.join(self.db.quote)`). -/
def pyStrJoinChars (sep : String) (s : String) : String :=
  strJoin sep (s.data.map fun c => String.singleton c)

/-- Python `s.startswith(pre)` (kernel-reducible model). -/
def pyStartswith (s pre : String) : Bool :=
  pre.data.isPrefixOf s.data

/-- Python `s.endswith(suf)` (kernel-reducible model). -/
def pyEndswith (s suf : String) : Bool :=
  suf.data.reverse.isPrefixOf s.data.reverse

/-- Python `s.strip()`: leading and trailing whitespace removed
(kernel-reducible model of the default `str.strip`). -/
def pyStrip (s : String) : String :=
  ⟨((s.data.dropWhile Char.isWhitespace).reverse.dropWhile
      Char.isWhitespace).reverse⟩

/-- Fuel-driven worker for `pyReplace`: at each position, if `old`
matches there it is consumed and `new` emitted, else one character is
copied. -/
def replaceAux (old new : List Char) : Nat → List Char → List Char
  | _, [] => []
  | 0, l => l
  | fuel + 1, c :: rest =>
    if old.isPrefixOf (c :: rest) then
      new ++ replaceAux old new fuel (List.drop (old.length - 1) rest)
    else
      c :: replaceAux old new fuel rest

/-- Python `s.replace(old, new)` for non-empty `old` (kernel-reducible
model; the source only calls it as `term.replace("\\", "")`). -/
def pyReplace (s old new : String) : String :=
  ⟨replaceAux old.data new.data s.data.length s.data⟩

/-- Exceptions that the embedded code can raise. -/
inductive PyErr : Type
  | operationalError : String → PyErr
  | interfaceError : String → PyErr
  | attributeError : PyErr
  | indexError : PyErr
  deriving DecidableEq, Repr

/-- Shape of one filter term (right-hand side of a keyword argument of
`parse` / `parse_join`): a plain scalar, a `(value, operator)` pair, or a
`(sequence, operator)` pair. -/
inductive Term : Type
  | scalar : PyVal → Term
  | pair : PyVal → String → Term
  | multi : List PyVal → String → Term
  deriving DecidableEq, Repr

/-- Result of `parse` / `parse_join`: the parameter mapping and the
rendered filter clause (`ParsedResult` in `porm/parsers/mysql.py`). -/
structure ParsedResult : Type where
  param : PyDict
  filter : String
  deriving DecidableEq

/-- Loop body of the `IN` / `NOT IN` branch shared by `parse` and
`parse_join`: for each element, one placeholder named
`f_fname + str(idx)` is emitted and bound. -/
def inAux (f_fname : String) : List PyVal → Nat → List String → PyDict →
    List String × PyDict
  | [], _, names, params => (names, params)
  | s :: rest, idx, names, params =>
    let in_field_name := f_fname ++ Nat.repr idx
    inAux f_fname rest (idx + 1)
      (names ++ ["%(" ++ in_field_name ++ ")s"])
      (dictInsert params in_field_name s)

/-- Loop body of the `LIKE` branch of `parse`: placeholder keys are
`"LKE_{idx}_{fname}"` and the column name is the (possibly
table-qualified) field name. -/
def likeAux (fname : String) : List PyVal → Nat → List String → PyDict →
    List String × PyDict
  | [], _, frags, params => (frags, params)
  | kw :: rest, idx, frags, params =>
    let field_val_key := "LKE_" ++ Nat.repr idx ++ "_" ++ fname
    likeAux fname rest (idx + 1)
      (frags ++ [fname ++ " LIKE " ++ "%(" ++ field_val_key ++ ")s"])
      (dictInsert params field_val_key (.vStr ("%" ++ pyFormat kw ++ "%")))

/-- Loop body of the `LIKE` branch of `parse_join`: keys are
`"joinfltrLKE_{idx}_{f_fname}"` and, unlike `parse`, the column position
is filled with the renamed `f_fname`, not the field name. -/
def joinLikeAux (f_fname : String) : List PyVal → Nat → List String → PyDict →
    List String × PyDict
  | [], _, frags, params => (frags, params)
  | kw :: rest, idx, frags, params =>
    let field_val_key := "joinfltrLKE_" ++ Nat.repr idx ++ "_" ++ f_fname
    joinLikeAux f_fname rest (idx + 1)
      (frags ++ [f_fname ++ " LIKE " ++ "%(" ++ field_val_key ++ ")s"])
      (dictInsert params field_val_key (.vStr ("%" ++ pyFormat kw ++ "%")))

/-- Lower-bound half of the range branch (`if left_val:` block): a
falsy bound emits nothing (its boundary character is never inspected);
`(` maps to `>`, `[` maps to `>=`; any other character on a truthy
bound raises `OperationalError`. -/
def rangeLeft (fname f_fname : String) (v0 : PyVal) (c0 : Char)
    (opMsg : String) (params : PyDict) :
    Except PyErr (List String × PyDict) :=
  if pyTruthy v0 then
    if c0 = '(' then
      .ok ([fname ++ ">" ++ "%(" ++ (f_fname ++ ">") ++ ")s"],
           dictInsert params (f_fname ++ ">") v0)
    else if c0 = '[' then
      .ok ([fname ++ ">=" ++ "%(" ++ (f_fname ++ ">=") ++ ")s"],
           dictInsert params (f_fname ++ ">=") v0)
    else .error (.operationalError ("Invalid Operator: " ++ opMsg))
  else .ok ([], params)

/-- Upper-bound half of the range branch (`if right_val:` block): `)` 
maps to `<`, `]` maps to `<=`; ends by joining the collected pieces with
`" AND "`. -/
def rangeRight (fname f_fname : String) (v1 : PyVal) (c1 : Char)
    (opMsg : String) (rts : List String) (params1 : PyDict) :
    Except PyErr (PyDict × Option String) :=
  if pyTruthy v1 then
    if c1 = ')' then
      .ok (dictInsert params1 (f_fname ++ "<") v1,
           some (strJoin " AND " (rts ++ [fname ++ "<" ++ "%(" ++ (f_fname ++ "<") ++ ")s"])))
    else if c1 = ']' then
      .ok (dictInsert params1 (f_fname ++ "<=") v1,
           some (strJoin " AND " (rts ++ [fname ++ "<=" ++ "%(" ++ (f_fname ++ "<=") ++ ")s"])))
    else .error (.operationalError ("Invalid Operator: " ++ opMsg))
  else .ok (params1, some (strJoin " AND " rts))

/-- The range branch shared by `parse` and `parse_join`: `v0`/`v1` are
`term[0]`/`term[1]`, `c0`/`c1` are `operator[0]`/`operator[1]`, `opMsg`
is the operator string interpolated into the error message. -/
def rangeBranch (fname f_fname : String) (v0 v1 : PyVal) (c0 c1 : Char)
    (opMsg : String) (params : PyDict) :
    Except PyErr (PyDict × Option String) :=
  match rangeLeft fname f_fname v0 c0 opMsg params with
  | .error e => .error e
  | .ok (rts, params1) => rangeRight fname f_fname v1 c1 opMsg rts params1

/-- Table-qualification of a field name:
`u"{}.{}".format(tablename, fname) if tablename else fname`. -/
def qualify (tablename : Option String) (fname0 : String) : String :=
  match tablename with
  | some t => if t.isEmpty then fname0 else t ++ "." ++ fname0
  | none => fname0

/-- One iteration of the `for fname, term in terms.items()` loop of
`parse`.  Returns the updated parameter dict and the `term_sql` fragment
(`none` models `continue`; `some ""` models the empty fragment that the
`if term_sql:` guard then drops). -/
def parseTerm (tablename : Option String) (fname0 : String) (term : Term)
    (params : PyDict) : Except PyErr (PyDict × Option String) :=
  let f_fname := "fltr_" ++ fname0
  let fname := qualify tablename fname0
  match term with
  | .scalar v =>
    match v with
    | .vNone => .ok (params, none)
    | _ =>
      .ok (dictInsert params f_fname v,
           some (fname ++ "=" ++ "%(" ++ f_fname ++ ")s"))
  | .pair v opRaw =>
    let operator := pyStrip opRaw
    match v with
    | .vNone => .ok (params, none)
    | _ =>
      .ok (dictInsert params f_fname v,
           some (fname ++ " " ++ operator ++ " " ++ "%(" ++ f_fname ++ ")s"))
  | .multi vs opRaw =>
    let operator := pyStrip opRaw
    if operator = "IN" ∨ operator = "NOT IN" then
      let r := inAux f_fname vs 0 [] params
      if r.1.isEmpty then .ok (r.2, some "1<>1")
      else
        .ok (r.2, some (fname ++ " " ++ operator ++ " (" ++ strJoin ", " r.1 ++ ")"))
    else if operator = "LIKE" then
      let r := likeAux fname vs 0 [] params
      .ok (r.2, some (strJoin " AND " r.1))
    else
      match vs, operator.data with
      | v0 :: v1 :: _, c0 :: c1 :: _ =>
        rangeBranch fname f_fname v0 v1 c0 c1 operator params
      | _, _ => .error .indexError

/-- The term loop of `parse`: fragments are appended only when truthy
(the `if term_sql:` guard). -/
def parseLoop (tablename : Option String) :
    List (String × Term) → PyDict → List String →
    Except PyErr (PyDict × List String)
  | [], params, sqls => .ok (params, sqls)
  | (fname0, term) :: rest, params, sqls =>
    match parseTerm tablename fname0 term params with
    | .error e => .error e
    | .ok (params1, osql) =>
      let sqls1 := match osql with
        | some s => if s.isEmpty then sqls else sqls ++ [s]
        | none => sqls
      parseLoop tablename rest params1 sqls1

/-- `parse(tablename, order_by, page, size, **terms)` from
`porm/parsers/mysql.py`. -/
def parse (tablename order_by : Option String) (page size : Option Int)
    (terms : List (String × Term)) : Except PyErr ParsedResult :=
  match parseLoop tablename terms [] ["1=1"] with
  | .error e => .error e
  | .ok (params, sqls) =>
    let filters := strJoin " AND " sqls
    let filters := match order_by with
      | some ob => if ob.isEmpty then filters else filters ++ " ORDER BY " ++ ob
      | none => filters
    match page, size with
    | some p, some sz =>
      let size1 := max 1 sz
      let filters := filters ++ " LIMIT %(page_from)s, %(page_to)s"
      let params := dictInsert params "page_from" (.vInt (max 0 (p - 1) * size1))
      let params := dictInsert params "page_to" (.vInt size1)
      .ok ⟨params, filters⟩
    | _, _ => .ok ⟨params, filters⟩

/-- One iteration of the term loop of `parse_join`.  Unlike `parse`: the
parameter-name stem is `"joinfltr_" + field_name`, operators are not
stripped, string terms bounded by backslashes are emitted verbatim as
`field=<literal-with-backslashes-stripped>` with no parameter, and a
non-string scalar hits `term.startswith` and raises `AttributeError`. -/
def parseJoinTerm (field_name : String) (term : Term) (params : PyDict) :
    Except PyErr (PyDict × Option String) :=
  let f_fname := "joinfltr_" ++ field_name
  match term with
  | .scalar v =>
    match v with
    | .vNone => .ok (params, none)
    | .vInt _ => .error .attributeError
    | .vStr s =>
      if pyStartswith s "\\" && pyEndswith s "\\" then
        .ok (params, some (field_name ++ "=" ++ pyReplace s "\\" ""))
      else
        .ok (dictInsert params f_fname (.vStr s),
             some (field_name ++ "=" ++ "%(" ++ f_fname ++ ")s"))
  | .pair v operator =>
    match v with
    | .vNone => .ok (params, none)
    | .vInt _ => .error .attributeError
    | .vStr s =>
      if pyStartswith s "\\" && pyEndswith s "\\" then
        .ok (params, some (field_name ++ "=" ++ pyReplace s "\\" ""))
      else
        .ok (dictInsert params f_fname (.vStr s),
             some (field_name ++ " " ++ operator ++ " " ++ "%(" ++ f_fname ++ ")s"))
  | .multi vs operator =>
    if operator = "IN" ∨ operator = "NOT IN" then
      let r := inAux f_fname vs 0 [] params
      if r.1.isEmpty then .ok (r.2, some "1<>1")
      else
        .ok (r.2, some (field_name ++ " " ++ operator ++ " (" ++ strJoin ", " r.1 ++ ")"))
    else if operator = "LIKE" then
      let r := joinLikeAux f_fname vs 0 [] params
      .ok (r.2, some (strJoin " AND " r.1))
    else
      match vs, operator.data with
      | v0 :: v1 :: _, c0 :: c1 :: _ =>
        rangeBranch field_name f_fname v0 v1 c0 c1 operator params
      | _, _ => .error .indexError

/-- The term loop of `parse_join`: fragments are appended
unconditionally (there is no `if term_sql:` guard in `parse_join`). -/
def parseJoinLoop :
    List (String × Term) → PyDict → List String →
    Except PyErr (PyDict × List String)
  | [], params, sqls => .ok (params, sqls)
  | (field_name, term) :: rest, params, sqls =>
    match parseJoinTerm field_name term params with
    | .error e => .error e
    | .ok (params1, osql) =>
      let sqls1 := match osql with
        | some s => sqls ++ [s]
        | none => sqls
      parseJoinLoop rest params1 sqls1

/-- `parse_join(**terms)` from `porm/parsers/mysql.py`. -/
def parse_join (terms : List (String × Term)) : Except PyErr ParsedResult :=
  match parseJoinLoop terms [] ["1=1"] with
  | .error e => .error e
  | .ok (params, sqls) => .ok ⟨params, strJoin " AND " sqls⟩


/-! ### Decimal representation facts

`str(idx)` in the source is `Nat.repr` in the embedding; the parameter
keys derived from positional indices are distinct because `Nat.repr` is
injective, proved below via the characterization of `Nat.toDigitsCore`
in terms of `Nat.digits`. -/

theorem digitChar_lt_ten_inj : ∀ a, a < 10 → ∀ b, b < 10 → Nat.digitChar a = Nat.digitChar b → a = b := by decide

theorem digitChar_ne : ∀ a, a < 10 → Nat.digitChar a ≠ ')' ∧ Nat.digitChar a ≠ '%' ∧ Nat.digitChar a ≠ 'j' := by decide

theorem toDigitsCore_eq_digits (fuel : Nat) :
    ∀ (n : Nat) (l : List Char), n < fuel →
      Nat.toDigitsCore 10 fuel n l =
        (if n = 0 then ['0'] else ((Nat.digits 10 n).reverse.map Nat.digitChar)) ++ l := by
  induction fuel with
  | zero => intro n l h; omega
  | succ f ih =>
    intro n l h
    show (if n / 10 = 0 then Nat.digitChar (n % 10) :: l
          else Nat.toDigitsCore 10 f (n / 10) (Nat.digitChar (n % 10) :: l)) = _
    by_cases h0 : n / 10 = 0
    · rw [if_pos h0]
      by_cases hn : n = 0
      · subst hn; simp
        rfl
      · rw [if_neg hn]
        have hlt : n < 10 := by omega
        rw [Nat.digits_def' (by norm_num : 1 < 10) (Nat.pos_of_ne_zero hn), h0]
        simp [Nat.mod_eq_of_lt hlt]
    · rw [if_neg h0]
      have hn : n ≠ 0 := by
        intro hc; rw [hc] at h0; simp at h0
      have hge : 10 ≤ n := by
        by_contra hc
        exact h0 (Nat.div_eq_of_lt (by omega))
      have hrec : n / 10 < f := by
        have := Nat.div_lt_self (by omega : 0 < n) (by norm_num : 1 < 10)
        omega
      rw [ih (n / 10) (Nat.digitChar (n % 10) :: l) hrec]
      have hq : n / 10 ≠ 0 := h0
      rw [if_neg hq, if_neg hn]
      rw [Nat.digits_def' (by norm_num : 1 < 10) (Nat.pos_of_ne_zero hn)]
      simp

theorem repr_data (n : Nat) :
    (Nat.repr n).data =
      if n = 0 then ['0'] else ((Nat.digits 10 n).reverse.map Nat.digitChar) := by
  show (List.asString (Nat.toDigitsCore 10 (n + 1) n [])).data = _
  rw [toDigitsCore_eq_digits (n + 1) n [] (Nat.lt_succ_self n)]
  simp [List.asString]

theorem mapDigitChar_inj : ∀ (l1 l2 : List Nat),
    (∀ d ∈ l1, d < 10) → (∀ d ∈ l2, d < 10) →
    l1.map Nat.digitChar = l2.map Nat.digitChar → l1 = l2 := by
  intro l1
  induction l1 with
  | nil => intro l2 _ _ h; cases l2 <;> simp_all
  | cons a l ih =>
    intro l2 h1 h2 h
    cases l2 with
    | nil => simp_all
    | cons b l2t =>
      simp only [List.map_cons, List.cons.injEq] at h
      have ha : a = b := digitChar_lt_ten_inj a (h1 a (by simp)) b (h2 b (by simp)) h.1
      have := ih l2t (fun d hd => h1 d (by simp [hd])) (fun d hd => h2 d (by simp [hd])) h.2
      simp [ha, this]

theorem digits_rev_map_ne_zero_list {n : Nat} (hn : n ≠ 0) :
    (Nat.digits 10 n).reverse.map Nat.digitChar ≠ ['0'] := by
  intro hrev
  cases hr : (Nat.digits 10 n).reverse with
  | nil => rw [hr] at hrev; simp at hrev
  | cons x t =>
    rw [hr] at hrev
    simp only [List.map_cons, List.cons.injEq] at hrev
    obtain ⟨hx, ht⟩ := hrev
    have ht2 : t = [] := by
      cases t with
      | nil => rfl
      | cons a b => simp at ht
    subst ht2
    have hx10 : x < 10 := by
      have hmem : x ∈ Nat.digits 10 n := by
        have : x ∈ (Nat.digits 10 n).reverse := by rw [hr]; simp
        simpa using this
      exact Nat.digits_lt_base (by norm_num) hmem
    have hx0 : x = 0 := digitChar_lt_ten_inj x hx10 0 (by norm_num) (by simpa using hx)
    subst hx0
    have hdig : Nat.digits 10 n = [0] := by
      have := congrArg List.reverse hr
      simpa using this
    have hzero := congrArg (Nat.ofDigits 10) hdig
    rw [Nat.ofDigits_digits] at hzero
    simp [Nat.ofDigits] at hzero
    exact hn hzero

theorem nat_repr_inj {m n : Nat} (h : Nat.repr m = Nat.repr n) : m = n := by
  have hd : (Nat.repr m).data = (Nat.repr n).data := by rw [h]
  rw [repr_data, repr_data] at hd
  by_cases hm : m = 0 <;> by_cases hn : n = 0
  · omega
  · exfalso
    rw [if_pos hm, if_neg hn] at hd
    exact digits_rev_map_ne_zero_list hn hd.symm
  · exfalso
    rw [if_neg hm, if_pos hn] at hd
    exact digits_rev_map_ne_zero_list hm hd
  · rw [if_neg hm, if_neg hn] at hd
    have hm' : (Nat.digits 10 m).reverse = (Nat.digits 10 n).reverse := by
      apply mapDigitChar_inj
      · intro d hdm
        exact Nat.digits_lt_base (by norm_num) (by simpa using hdm)
      · intro d hdn
        exact Nat.digits_lt_base (by norm_num) (by simpa using hdn)
      · exact hd
    have hdig : Nat.digits 10 m = Nat.digits 10 n := by
      have := congrArg List.reverse hm'
      simpa using this
    have := congrArg (Nat.ofDigits 10) hdig
    rwa [Nat.ofDigits_digits, Nat.ofDigits_digits] at this

theorem repr_chars (n : Nat) : ∀ c ∈ (Nat.repr n).data, c ≠ ')' ∧ c ≠ '%' ∧ c ≠ 'j' := by
  intro c hc
  rw [repr_data] at hc
  by_cases hn : n = 0
  · rw [if_pos hn] at hc
    simp at hc
    subst hc
    refine ⟨by decide, by decide, by decide⟩
  · rw [if_neg hn] at hc
    simp at hc
    obtain ⟨d, hd, hcd⟩ := hc
    have : d < 10 := Nat.digits_lt_base (by norm_num) hd
    rw [← hcd]
    exact digitChar_ne d this

/-! ### Connection, transaction and savepoint protocol

Embedding of the relevant parts of `porm/databases/api/__init__.py`:
the `_transaction` / `_savepoint` / `_atomic` context managers and
`DBApi.close`.  Observable effects (SQL statements issued through
`execute_sql`, pings, connection closes) are collected in an action log.
-/

/-- An entry of `_state.transactions`.  Only `_transaction.__enter__`
ever calls `push_transaction`; `_savepoint` never pushes itself. -/
inductive TxnScope : Type
  | transaction : TxnScope
  deriving DecidableEq, Repr

/-- Observable state of one `DBApi` connection slot: the transaction
stack and the log of statements issued so far. -/
structure DBConnState : Type where
  transactions : List TxnScope
  log : List String
  deriving DecidableEq, Repr

/-- Attribute lookup of `self.db.quote` performed by
`_savepoint.__init__`.  The `DBApi` class (and its `MyDBApi` subclass)
define no attribute named `quote` anywhere, so the lookup fails with
`AttributeError`; the model records that absence as `none`. -/
def quoteAttr : Option String := none

/-- A constructed `_savepoint` object: its `sid` and `quoted_sid`. -/
structure SavepointObj : Type where
  sid : String
  quoted_sid : String
  deriving DecidableEq, Repr

/-- `_savepoint.__init__(db, sid)`: computes
`quoted_sid = sid.join(db.quote)`, which raises `AttributeError`
because `DBApi` has no `quote` attribute. -/
def savepointNew (sid : String) : Except PyErr SavepointObj :=
  match quoteAttr with
  | none => .error .attributeError
  | some q => .ok ⟨sid, pyStrJoinChars sid q⟩

/-- `_transaction.__enter__`: when the stack is empty it calls
`db.begin()` (which only opens the connection and issues no statement),
then always pushes itself via `push_transaction`. -/
def transactionEnter (s : DBConnState) : DBConnState :=
  { s with transactions := s.transactions ++ [.transaction] }

/-- `_savepoint.__enter__`: issues `SAVEPOINT <quoted_sid>;` and does
not touch the transaction stack. -/
def savepointEnter (sp : SavepointObj) (s : DBConnState) : DBConnState :=
  { s with log := s.log ++ ["SAVEPOINT " ++ sp.quoted_sid ++ ";"] }

/-- `_savepoint.rollback`: issues `ROLLBACK TO SAVEPOINT <quoted_sid>;`. -/
def savepointRollback (sp : SavepointObj) (s : DBConnState) : DBConnState :=
  { s with log := s.log ++ ["ROLLBACK TO SAVEPOINT " ++ sp.quoted_sid ++ ";"] }

/-- The helper object selected by `_atomic.__enter__`. -/
inductive AtomicHelper : Type
  | transactionHelper : AtomicHelper
  | savepointHelper : SavepointObj → AtomicHelper
  deriving DecidableEq, Repr

/-- `_atomic.__enter__`: at depth 0 it enters a `_transaction`,
otherwise it constructs and enters a `_savepoint` (whose construction
reads the missing `db.quote` attribute). -/
def atomicEnter (s : DBConnState) (sid : String) :
    Except PyErr (DBConnState × AtomicHelper) :=
  if s.transactions.length = 0 then
    .ok (transactionEnter s, .transactionHelper)
  else
    match savepointNew sid with
    | .error e => .error e
    | .ok sp => .ok (savepointEnter sp s, .savepointHelper sp)

/-- State of a `DBApi` facade as observed by `close()`:
`deferred`, the `_state._closed` flag, whether a connection object is
held, and how many transactions are on the stack. -/
structure FacadeState : Type where
  deferred : Bool
  closedFlag : Bool
  hasConn : Bool
  transactions : Nat
  deriving DecidableEq, Repr

/-- `_state.reset()`: closed flag set, connection dropped, stacks
cleared. -/
def resetState (f : FacadeState) : FacadeState :=
  { f with closedFlag := true, hasConn := false, transactions := 0 }

/-- `DBApi.in_transaction`: `bool(self._state.transactions)`. -/
def in_transaction (f : FacadeState) : Bool := f.transactions != 0

/-- `DBApi.close`.  Returns the raised exception or the returned
boolean, the facade state after the call, and the log of actions taken
against the connection (a ping from the `closed` property, and
`conn.close()` when the connection was open). -/
def close (f : FacadeState) : (Except PyErr Bool) × FacadeState × List String :=
  if f.deferred then
    (.error (.interfaceError
       "Error, database must be initialized before opening a connection."), f, [])
  else if in_transaction f then
    (.error (.operationalError
       "Attempting to close database while transaction is open."), f, [])
  else
    let pings := if f.closedFlag then [] else ["PING"]
    let is_open := !f.closedFlag
    let closes := if is_open then ["CONN.CLOSE"] else []
    (.ok is_open, resetState f, pings ++ closes)

/-! ### Chained condition builder

Embedding of `porm/conditions/mysql.py`: `Operand`, `Relation`,
`ConditionNode`, `ConditionTree` and the mutating `Condition` builder
(modelled functionally; `_add` returns the updated builder).
-/

/-- The SQL comparison operands (`Operand` enum). -/
inductive Operand : Type
  | EQ | NEQ | GT | GTE | LT | LTE | IN | NIN | LIKE | NLIKE
  deriving DecidableEq, Repr

/-- The `value` of each `Operand` member. -/
def Operand.value : Operand → String
  | .EQ => "=" | .NEQ => "<>" | .GT => ">" | .GTE => ">=" | .LT => "<"
  | .LTE => "<=" | .IN => "IN" | .NIN => "NOT IN" | .LIKE => "LIKE"
  | .NLIKE => "NOT LIKE"

/-- The boolean connective (`Relation` enum). -/
inductive Relation : Type
  | AND | OR
  deriving DecidableEq, Repr

/-- The `value` of each `Relation` member. -/
def Relation.value : Relation → String
  | .AND => "AND" | .OR => "OR"

/-- Values stored in a `ConditionNode._field_val`: strings, integers,
`None` or tuples of values. -/
inductive FieldVal : Type
  | fNone : FieldVal
  | fStr : String → FieldVal
  | fInt : Int → FieldVal
  | fTup : List FieldVal → FieldVal

/-- A quote character (Python uses it when producing `repr` of a
string); written via its code point to keep source text simple. -/
def quoteChar : String := String.singleton (Char.ofNat 39)

mutual
/-- Python `repr()` of a `FieldVal`, used for tuple elements. -/
def FieldVal.reprPy : FieldVal → String
  | .fNone => "None"
  | .fStr s => quoteChar ++ s ++ quoteChar
  | .fInt n => toString n
  | .fTup vs => "(" ++ strJoin ", " (FieldVal.reprListPy vs) ++
      (if vs.length = 1 then ",)" else ")")

/-- `repr()` of each element of a list of values. -/
def FieldVal.reprListPy : List FieldVal → List String
  | [] => []
  | v :: vs => FieldVal.reprPy v :: FieldVal.reprListPy vs
end

/-- Python `str()` of a `FieldVal` (top level: strings unquoted). -/
def FieldVal.strPy : FieldVal → String
  | .fNone => "None"
  | .fStr s => s
  | .fInt n => toString n
  | .fTup vs => "(" ++ strJoin ", " (FieldVal.reprListPy vs) ++
      (if vs.length = 1 then ",)" else ")")

/-- A `ConditionNode` or `ConditionTree` (the `Union` the source passes
around): a leaf node carries field name, operand and value; a branch
carries a relation and two subtrees. -/
inductive CondTree : Type
  | leaf : String → Operand → FieldVal → CondTree
  | branch : CondTree → Relation → CondTree → CondTree

/-- `__str__` of a node / tree. -/
def condTreeStr : CondTree → String
  | .leaf f op v => f ++ " " ++ op.value ++ " " ++ v.strPy
  | .branch l rel r =>
    "(" ++ condTreeStr l ++ " " ++ rel.value ++ " " ++ condTreeStr r ++ ")"

/-- The `Condition` builder: its `_condition` field. -/
structure Condition : Type where
  condition : Option CondTree

/-- `Condition.__str__`: `str(self._condition)`; `str(None)` is
`"None"`. -/
def Condition.str (c : Condition) : String :=
  match c.condition with
  | none => "None"
  | some t => condTreeStr t

/-- `Condition._init(right)`: wraps the first condition as
`(1 = 1 AND right)`. -/
def Condition.inits (right : CondTree) : CondTree :=
  .branch (.leaf "1" .EQ (.fStr "1")) .AND right

/-- `Condition._add(node, relation=AND)`. -/
def Condition.add (c : Condition) (node : CondTree)
    (relation : Relation := .AND) : Condition :=
  match c.condition with
  | none => ⟨some (Condition.inits node)⟩
  | some t => ⟨some (.branch t relation node)⟩

/-- `Condition.and_in_these(field_name, in_vals)`: adds a node with
`Operand.IN`. -/
def and_in_these (c : Condition) (field_name : String)
    (in_vals : List FieldVal) : Condition :=
  c.add (.leaf field_name .IN (.fTup in_vals))

/-- `Condition.and_nin_these(field_name, nin_vals)`: the source also
passes `Operand.IN` here (not `Operand.NIN`). -/
def and_nin_these (c : Condition) (field_name : String)
    (nin_vals : List FieldVal) : Condition :=
  c.add (.leaf field_name .IN (.fTup nin_vals))

/-! ### Parameter-key shape lemmas

Every key `parse` ever inserts starts with `f` (`fltr_...`), `L`
(`LKE_...`) or `p` (`page_from` / `page_to`); every key `parse_join`
inserts starts with `j` (`joinfltr...`).  These shapes make the two
parameter namespaces disjoint.
-/

theorem dictInsert_keys (d : PyDict) (k : String) (v : PyVal) :
    ∀ k2 ∈ dictKeys (dictInsert d k v), k2 = k ∨ k2 ∈ dictKeys d := by
  induction d with
  | nil =>
    intro k2 h
    simp [dictInsert, dictKeys] at h
    exact Or.inl h
  | cons hd tl ih =>
    intro k2 h
    by_cases hk : hd.1 = k
    · simp [dictInsert, dictKeys, hk] at h
      rcases h with h | h
      · exact Or.inl h
      · exact Or.inr (by simp [dictKeys, hk]; right; exact h)
    · simp [dictInsert, dictKeys, hk] at h
      rcases h with h | h
      · exact Or.inr (by simp [dictKeys]; left; exact h)
      · rcases ih k2 (by simpa [dictKeys] using h) with h2 | h2
        · exact Or.inl h2
        · exact Or.inr (by simp [dictKeys] at h2 ⊢; right; exact h2)

theorem inAux_keys (P : String → Prop) (f_fname : String) :
    ∀ (vs : List PyVal) (idx : Nat) (names : List String) (params : PyDict),
      (∀ i, P (f_fname ++ Nat.repr i)) →
      (∀ k ∈ dictKeys params, P k) →
      ∀ k ∈ dictKeys (inAux f_fname vs idx names params).2, P k := by
  intro vs
  induction vs with
  | nil => intro idx names params _ hp k hk; exact hp k hk
  | cons v rest ih =>
    intro idx names params hf hp k hk
    refine ih (idx + 1) _ _ hf ?_ k hk
    intro k2 hk2
    rcases dictInsert_keys params (f_fname ++ Nat.repr idx) v k2 hk2 with h | h
    · rw [h]; exact hf idx
    · exact hp k2 h

theorem likeAux_keys (P : String → Prop) (fname : String) :
    ∀ (vs : List PyVal) (idx : Nat) (frags : List String) (params : PyDict),
      (∀ suf : String, P ("LKE_" ++ suf)) →
      (∀ k ∈ dictKeys params, P k) →
      ∀ k ∈ dictKeys (likeAux fname vs idx frags params).2, P k := by
  intro vs
  induction vs with
  | nil => intro idx frags params _ hp k hk; exact hp k hk
  | cons v rest ih =>
    intro idx frags params hf hp k hk
    refine ih (idx + 1) _ _ hf ?_ k hk
    intro k2 hk2
    rcases dictInsert_keys params ("LKE_" ++ Nat.repr idx ++ "_" ++ fname) _ k2 hk2 with h | h
    · rw [h, String.append_assoc, String.append_assoc]
      exact hf _
    · exact hp k2 h

theorem joinLikeAux_keys (P : String → Prop) (f_fname : String) :
    ∀ (vs : List PyVal) (idx : Nat) (frags : List String) (params : PyDict),
      (∀ suf : String, P ("joinfltrLKE_" ++ suf)) →
      (∀ k ∈ dictKeys params, P k) →
      ∀ k ∈ dictKeys (joinLikeAux f_fname vs idx frags params).2, P k := by
  intro vs
  induction vs with
  | nil => intro idx frags params _ hp k hk; exact hp k hk
  | cons v rest ih =>
    intro idx frags params hf hp k hk
    refine ih (idx + 1) _ _ hf ?_ k hk
    intro k2 hk2
    rcases dictInsert_keys params ("joinfltrLKE_" ++ Nat.repr idx ++ "_" ++ f_fname) _ k2 hk2 with h | h
    · rw [h, String.append_assoc, String.append_assoc]
      exact hf _
    · exact hp k2 h

theorem rangeLeft_keys (P : String → Prop) (fname f_fname : String)
    (v0 : PyVal) (c0 : Char) (opMsg : String) (params : PyDict)
    (res : List String × PyDict)
    (hf : ∀ suf : String, P (f_fname ++ suf))
    (hp : ∀ k ∈ dictKeys params, P k)
    (h : rangeLeft fname f_fname v0 c0 opMsg params = .ok res) :
    ∀ k ∈ dictKeys res.2, P k := by
  unfold rangeLeft at h
  split at h
  · split at h
    · injection h with he
      subst he
      intro k hk
      rcases dictInsert_keys params (f_fname ++ ">") v0 k hk with hh | hh
      · rw [hh]; exact hf _
      · exact hp k hh
    · split at h
      · injection h with he
        subst he
        intro k hk
        rcases dictInsert_keys params (f_fname ++ ">=") v0 k hk with hh | hh
        · rw [hh]; exact hf _
        · exact hp k hh
      · exact absurd h (by simp)
  · injection h with he
    subst he
    intro k hk
    exact hp k hk

theorem rangeRight_keys (P : String → Prop) (fname f_fname : String)
    (v1 : PyVal) (c1 : Char) (opMsg : String) (rts : List String)
    (params1 : PyDict) (res : PyDict × Option String)
    (hf : ∀ suf : String, P (f_fname ++ suf))
    (hp : ∀ k ∈ dictKeys params1, P k)
    (h : rangeRight fname f_fname v1 c1 opMsg rts params1 = .ok res) :
    ∀ k ∈ dictKeys res.1, P k := by
  unfold rangeRight at h
  split at h
  · split at h
    · injection h with he
      subst he
      intro k hk
      rcases dictInsert_keys params1 (f_fname ++ "<") v1 k hk with hh | hh
      · rw [hh]; exact hf _
      · exact hp k hh
    · split at h
      · injection h with he
        subst he
        intro k hk
        rcases dictInsert_keys params1 (f_fname ++ "<=") v1 k hk with hh | hh
        · rw [hh]; exact hf _
        · exact hp k hh
      · exact absurd h (by simp)
  · injection h with he
    subst he
    intro k hk
    exact hp k hk

theorem rangeBranch_keys (P : String → Prop) (fname f_fname : String)
    (v0 v1 : PyVal) (c0 c1 : Char) (opMsg : String) (params : PyDict)
    (res : PyDict × Option String)
    (hf : ∀ suf : String, P (f_fname ++ suf))
    (hp : ∀ k ∈ dictKeys params, P k)
    (h : rangeBranch fname f_fname v0 v1 c0 c1 opMsg params = .ok res) :
    ∀ k ∈ dictKeys res.1, P k := by
  unfold rangeBranch at h
  split at h
  · exact absurd h (by simp)
  · rename_i rts params1 hstep
    exact rangeRight_keys P fname f_fname v1 c1 opMsg rts params1 res hf
      (rangeLeft_keys P fname f_fname v0 c0 opMsg params (rts, params1) hf hp hstep) h

theorem parseTerm_keys (P : String → Prop) (tn : Option String)
    (fname0 : String) (term : Term) (params : PyDict)
    (res : PyDict × Option String)
    (hf0 : P ("fltr_" ++ fname0))
    (hf : ∀ suf : String, P ("fltr_" ++ fname0 ++ suf))
    (hL : ∀ suf : String, P ("LKE_" ++ suf))
    (hp : ∀ k ∈ dictKeys params, P k)
    (h : parseTerm tn fname0 term params = .ok res) :
    ∀ k ∈ dictKeys res.1, P k := by
  cases term with
  | scalar v =>
    cases v with
    | vNone =>
      simp only [parseTerm] at h
      injection h with he
      subst he
      exact hp
    | vStr s =>
      simp only [parseTerm] at h
      injection h with he
      subst he
      intro k hk
      rcases dictInsert_keys params ("fltr_" ++ fname0) _ k hk with hh | hh
      · rw [hh]; exact hf0
      · exact hp k hh
    | vInt n =>
      simp only [parseTerm] at h
      injection h with he
      subst he
      intro k hk
      rcases dictInsert_keys params ("fltr_" ++ fname0) _ k hk with hh | hh
      · rw [hh]; exact hf0
      · exact hp k hh
  | pair v opRaw =>
    cases v with
    | vNone =>
      simp only [parseTerm] at h
      injection h with he
      subst he
      exact hp
    | vStr s =>
      simp only [parseTerm] at h
      injection h with he
      subst he
      intro k hk
      rcases dictInsert_keys params ("fltr_" ++ fname0) _ k hk with hh | hh
      · rw [hh]; exact hf0
      · exact hp k hh
    | vInt n =>
      simp only [parseTerm] at h
      injection h with he
      subst he
      intro k hk
      rcases dictInsert_keys params ("fltr_" ++ fname0) _ k hk with hh | hh
      · rw [hh]; exact hf0
      · exact hp k hh
  | multi vs opRaw =>
    simp only [parseTerm] at h
    split at h
    · split at h
      · injection h with he
        subst he
        exact inAux_keys P ("fltr_" ++ fname0) vs 0 [] params (fun i => hf (Nat.repr i)) hp
      · injection h with he
        subst he
        exact inAux_keys P ("fltr_" ++ fname0) vs 0 [] params (fun i => hf (Nat.repr i)) hp
    · split at h
      · injection h with he
        subst he
        exact likeAux_keys P _ vs 0 [] params hL hp
      · split at h
        · exact rangeBranch_keys P _ _ _ _ _ _ _ _ res hf hp h
        · exact absurd h (by simp)

theorem parseLoop_keys (P : String → Prop) (tn : Option String) :
    ∀ (terms : List (String × Term)) (params : PyDict) (sqls : List String)
      (res : PyDict × List String),
      (∀ fname0 : String, P ("fltr_" ++ fname0) ∧ ∀ suf : String, P ("fltr_" ++ fname0 ++ suf)) →
      (∀ suf : String, P ("LKE_" ++ suf)) →
      (∀ k ∈ dictKeys params, P k) →
      parseLoop tn terms params sqls = .ok res →
      ∀ k ∈ dictKeys res.1, P k := by
  intro terms
  induction terms with
  | nil =>
    intro params sqls res _ _ hp h
    simp only [parseLoop] at h
    injection h with he
    subst he
    exact hp
  | cons t rest ih =>
    intro params sqls res hF hL hp h
    obtain ⟨fname0, term⟩ := t
    simp only [parseLoop] at h
    cases ht : parseTerm tn fname0 term params with
    | error e => rw [ht] at h; exact absurd h (by simp)
    | ok pr =>
      rw [ht] at h
      dsimp only at h
      exact ih _ _ res hF hL
        (parseTerm_keys P tn fname0 term params pr (hF fname0).1 (hF fname0).2 hL hp ht) h

theorem parse_keys (tn ob : Option String) (pg sz : Option Int)
    (terms : List (String × Term)) (r : ParsedResult)
    (h : parse tn ob pg sz terms = .ok r) :
    ∀ k ∈ dictKeys r.param,
      k.data.head? = some 'f' ∨ k.data.head? = some 'L' ∨
      k = "page_from" ∨ k = "page_to" := by
  have hloopP : ∀ (res : PyDict × List String),
      parseLoop tn terms [] ["1=1"] = .ok res →
      ∀ k ∈ dictKeys res.1,
        k.data.head? = some 'f' ∨ k.data.head? = some 'L' ∨
        k = "page_from" ∨ k = "page_to" := by
    intro res hres
    refine parseLoop_keys _ tn terms [] ["1=1"] res ?_ ?_ (by intro k hk; simp [dictKeys] at hk) hres
    · intro fname0
      constructor
      · left
        rw [String.data_append]
        rfl
      · intro suf
        left
        rw [String.append_assoc, String.data_append]
        rfl
    · intro suf
      right; left
      rw [String.data_append]
      rfl
  unfold parse at h
  cases hL : parseLoop tn terms [] ["1=1"] with
  | error e => rw [hL] at h; exact absurd h (by simp)
  | ok res =>
    rw [hL] at h
    dsimp only at h
    cases pg with
    | none =>
      cases sz with
      | none =>
        injection h with he
        subst he
        intro k hk
        exact hloopP res hL k hk
      | some z =>
        injection h with he
        subst he
        intro k hk
        exact hloopP res hL k hk
    | some p =>
      cases sz with
      | none =>
        injection h with he
        subst he
        intro k hk
        exact hloopP res hL k hk
      | some z =>
        injection h with he
        subst he
        intro k hk
        rcases dictInsert_keys _ "page_to" _ k hk with hh | hh
        · right; right; right; exact hh
        · rcases dictInsert_keys _ "page_from" _ k hh with hh2 | hh2
          · right; right; left; exact hh2
          · exact hloopP res hL k hh2

theorem parseJoinTerm_keys (P : String → Prop)
    (field_name : String) (term : Term) (params : PyDict)
    (res : PyDict × Option String)
    (hf0 : P ("joinfltr_" ++ field_name))
    (hf : ∀ suf : String, P ("joinfltr_" ++ field_name ++ suf))
    (hL : ∀ suf : String, P ("joinfltrLKE_" ++ suf))
    (hp : ∀ k ∈ dictKeys params, P k)
    (h : parseJoinTerm field_name term params = .ok res) :
    ∀ k ∈ dictKeys res.1, P k := by
  cases term with
  | scalar v =>
    cases v with
    | vNone =>
      simp only [parseJoinTerm] at h
      injection h with he
      subst he
      exact hp
    | vInt n => exact absurd h (by simp [parseJoinTerm])
    | vStr s =>
      simp only [parseJoinTerm] at h
      split at h
      · injection h with he
        subst he
        exact hp
      · injection h with he
        subst he
        intro k hk
        rcases dictInsert_keys params ("joinfltr_" ++ field_name) _ k hk with hh | hh
        · rw [hh]; exact hf0
        · exact hp k hh
  | pair v opRaw =>
    cases v with
    | vNone =>
      simp only [parseJoinTerm] at h
      injection h with he
      subst he
      exact hp
    | vInt n => exact absurd h (by simp [parseJoinTerm])
    | vStr s =>
      simp only [parseJoinTerm] at h
      split at h
      · injection h with he
        subst he
        exact hp
      · injection h with he
        subst he
        intro k hk
        rcases dictInsert_keys params ("joinfltr_" ++ field_name) _ k hk with hh | hh
        · rw [hh]; exact hf0
        · exact hp k hh
  | multi vs opRaw =>
    simp only [parseJoinTerm] at h
    split at h
    · split at h
      · injection h with he
        subst he
        exact inAux_keys P ("joinfltr_" ++ field_name) vs 0 [] params (fun i => hf (Nat.repr i)) hp
      · injection h with he
        subst he
        exact inAux_keys P ("joinfltr_" ++ field_name) vs 0 [] params (fun i => hf (Nat.repr i)) hp
    · split at h
      · injection h with he
        subst he
        exact joinLikeAux_keys P _ vs 0 [] params hL hp
      · split at h
        · exact rangeBranch_keys P _ _ _ _ _ _ _ _ res hf hp h
        · exact absurd h (by simp)

theorem parseJoinLoop_keys (P : String → Prop) :
    ∀ (terms : List (String × Term)) (params : PyDict) (sqls : List String)
      (res : PyDict × List String),
      (∀ f : String, P ("joinfltr_" ++ f) ∧ ∀ suf : String, P ("joinfltr_" ++ f ++ suf)) →
      (∀ suf : String, P ("joinfltrLKE_" ++ suf)) →
      (∀ k ∈ dictKeys params, P k) →
      parseJoinLoop terms params sqls = .ok res →
      ∀ k ∈ dictKeys res.1, P k := by
  intro terms
  induction terms with
  | nil =>
    intro params sqls res _ _ hp h
    simp only [parseJoinLoop] at h
    injection h with he
    subst he
    exact hp
  | cons t rest ih =>
    intro params sqls res hF hL hp h
    obtain ⟨field_name, term⟩ := t
    simp only [parseJoinLoop] at h
    cases ht : parseJoinTerm field_name term params with
    | error e => rw [ht] at h; exact absurd h (by simp)
    | ok pr =>
      rw [ht] at h
      dsimp only at h
      exact ih _ _ res hF hL
        (parseJoinTerm_keys P field_name term params pr (hF field_name).1 (hF field_name).2 hL hp ht) h

theorem parse_join_keys (terms : List (String × Term)) (r : ParsedResult)
    (h : parse_join terms = .ok r) :
    ∀ k ∈ dictKeys r.param, k.data.head? = some 'j' := by
  unfold parse_join at h
  cases hL : parseJoinLoop terms [] ["1=1"] with
  | error e => rw [hL] at h; exact absurd h (by simp)
  | ok res =>
    rw [hL] at h
    dsimp only at h
    injection h with he
    subst he
    refine parseJoinLoop_keys _ terms [] ["1=1"] res ?_ ?_ (by intro k hk; simp [dictKeys] at hk) hL
    · intro f
      constructor
      · rw [String.data_append]; rfl
      · intro suf
        rw [String.append_assoc, String.data_append]; rfl
    · intro suf
      rw [String.data_append]; rfl

/-- C6: for every pair of filter-term mappings (and any table alias,
order-by and pagination arguments), the parameter keys produced by
`parse` are disjoint from those produced by `parse_join`, so merging the
two mappings can never overwrite a key. -/
theorem parse_join_key_namespaces_disjoint
    (tn ob : Option String) (pg sz : Option Int)
    (terms1 terms2 : List (String × Term)) (r1 r2 : ParsedResult)
    (h1 : parse tn ob pg sz terms1 = .ok r1)
    (h2 : parse_join terms2 = .ok r2) :
    ∀ k ∈ dictKeys r1.param, k ∉ dictKeys r2.param := by
  intro k hk hmem
  have hj : k.data.head? = some 'j' := parse_join_keys terms2 r2 h2 k hmem
  rcases parse_keys tn ob pg sz terms1 r1 h1 k hk with hh | hh | hh | hh
  · rw [hh] at hj
    exact absurd hj (by simp)
  · rw [hh] at hj
    exact absurd hj (by simp)
  · rw [hh] at hj
    exact absurd hj (by decide)
  · rw [hh] at hj
    exact absurd hj (by decide)

theorem parse_nopage_keys (tn ob : Option String)
    (terms : List (String × Term)) (r : ParsedResult)
    (h : parse tn ob none none terms = .ok r) :
    ∀ k ∈ dictKeys r.param,
      k.data.head? = some 'f' ∨ k.data.head? = some 'L' := by
  unfold parse at h
  cases hL : parseLoop tn terms [] ["1=1"] with
  | error e => rw [hL] at h; exact absurd h (by simp)
  | ok res =>
    rw [hL] at h
    dsimp only at h
    injection h with he
    subst he
    refine parseLoop_keys _ tn terms [] ["1=1"] res ?_ ?_ (by intro k hk; simp [dictKeys] at hk) hL
    · intro fname0
      constructor
      · left
        rw [String.data_append]; rfl
      · intro suf
        left
        rw [String.append_assoc, String.data_append]; rfl
    · intro suf
      right
      rw [String.data_append]; rfl

/-- C9: pagination.  With both `page` and `size` given, `size` is
floored to at least 1, `LIMIT %(page_from)s, %(page_to)s` is appended,
and `page_from = max(0, page-1) * size`, `page_to = size`; any
`page ≤ 1` gives `page_from = 0`; `page=2, size=10` gives 10 and 10;
and when either argument is `None`, `parse` returns exactly the
unpaginated result, whose parameter mapping contains no pagination
key. -/
theorem parse_pagination :
    (∀ (tn ob : Option String) (p sz : Int) (terms : List (String × Term)) (r0 : ParsedResult),
        parse tn ob none none terms = .ok r0 →
        parse tn ob (some p) (some sz) terms =
          .ok ⟨dictInsert (dictInsert r0.param "page_from" (.vInt (max 0 (p - 1) * max 1 sz)))
                 "page_to" (.vInt (max 1 sz)),
               r0.filter ++ " LIMIT %(page_from)s, %(page_to)s"⟩) ∧
    (∀ (tn ob : Option String) (p sz : Int) (terms : List (String × Term)) (r0 : ParsedResult),
        parse tn ob none none terms = .ok r0 → p ≤ 1 →
        parse tn ob (some p) (some sz) terms =
          .ok ⟨dictInsert (dictInsert r0.param "page_from" (.vInt 0))
                 "page_to" (.vInt (max 1 sz)),
               r0.filter ++ " LIMIT %(page_from)s, %(page_to)s"⟩) ∧
    (parse none none (some 2) (some 10) [] =
        .ok ⟨[("page_from", .vInt 10), ("page_to", .vInt 10)],
             "1=1 LIMIT %(page_from)s, %(page_to)s"⟩) ∧
    (∀ (tn ob : Option String) (p sz : Int) (terms : List (String × Term)),
        parse tn ob (some p) none terms = parse tn ob none none terms ∧
        parse tn ob none (some sz) terms = parse tn ob none none terms) ∧
    (∀ (tn ob : Option String) (terms : List (String × Term)) (r0 : ParsedResult),
        parse tn ob none none terms = .ok r0 →
        "page_from" ∉ dictKeys r0.param ∧ "page_to" ∉ dictKeys r0.param) := by
  have part1 : ∀ (tn ob : Option String) (p sz : Int) (terms : List (String × Term)) (r0 : ParsedResult),
      parse tn ob none none terms = .ok r0 →
      parse tn ob (some p) (some sz) terms =
        .ok ⟨dictInsert (dictInsert r0.param "page_from" (.vInt (max 0 (p - 1) * max 1 sz)))
               "page_to" (.vInt (max 1 sz)),
             r0.filter ++ " LIMIT %(page_from)s, %(page_to)s"⟩ := by
    intro tn ob p sz terms r0 h
    unfold parse at h ⊢
    cases hL : parseLoop tn terms [] ["1=1"] with
    | error e => rw [hL] at h; exact absurd h (by simp)
    | ok res =>
      rw [hL] at h
      obtain ⟨params, sqls⟩ := res
      dsimp only at h ⊢
      injection h with he
      subst he
      rfl
  refine ⟨part1, ?_, ?_, ?_, ?_⟩
  · intro tn ob p sz terms r0 h hp
    have hmax : max 0 (p - 1) = 0 := max_eq_left (by omega)
    have := part1 tn ob p sz terms r0 h
    rwa [hmax, zero_mul] at this
  · rfl
  · intro tn ob p sz terms
    constructor <;>
    · unfold parse
      cases hL : parseLoop tn terms [] ["1=1"] with
      | error e => rfl
      | ok res => rfl
  · intro tn ob terms r0 h
    constructor
    · intro hmem
      rcases parse_nopage_keys tn ob terms r0 h _ hmem with hh | hh <;>
        exact absurd hh (by decide)
    · intro hmem
      rcases parse_nopage_keys tn ob terms r0 h _ hmem with hh | hh <;>
        exact absurd hh (by decide)

/-- Witness for C9: page=2, size=10 over a one-term mapping. -/
theorem parse_pagination_witness :
    parse none none (some 2) (some 10) [("a", .scalar (.vInt 5))] =
      .ok ⟨dictInsert (dictInsert [("fltr_a", PyVal.vInt 5)] "page_from"
             (.vInt (max 0 ((2 : Int) - 1) * max 1 10)))
             "page_to" (.vInt (max 1 10)),
           "1=1 AND a=%(fltr_a)s" ++ " LIMIT %(page_from)s, %(page_to)s"⟩ :=
  parse_pagination.1 none none 2 10 [("a", .scalar (.vInt 5))]
    ⟨[("fltr_a", PyVal.vInt 5)], "1=1 AND a=%(fltr_a)s"⟩ rfl

/-! ### Closed forms for the IN and LIKE branches -/

theorem string_append_cancel_left {s t u : String} (h : s ++ t = s ++ u) : t = u := by
  have hd : (s ++ t).data = (s ++ u).data := by rw [h]
  rw [String.data_append, String.data_append] at hd
  exact String.ext (List.append_cancel_left hd)

theorem string_append_cancel_right {s t u : String} (h : s ++ u = t ++ u) : s = t := by
  have hd : (s ++ u).data = (t ++ u).data := by rw [h]
  rw [String.data_append, String.data_append] at hd
  exact String.ext (List.append_cancel_right hd)

/-- The placeholder names generated by the IN branch, in order. -/
def inNames (f : String) : Nat → List PyVal → List String
  | _, [] => []
  | idx, _ :: vs => (f ++ Nat.repr idx) :: inNames f (idx + 1) vs

/-- The parameter entries generated by the IN branch, in order. -/
def inEntries (f : String) : Nat → List PyVal → PyDict
  | _, [] => []
  | idx, v :: vs => (f ++ Nat.repr idx, v) :: inEntries f (idx + 1) vs

/-- Sequential `d[k] = v` assignments for a list of entries. -/
def insertAll (params : PyDict) : PyDict → PyDict
  | [] => params
  | (k, v) :: rest => insertAll (dictInsert params k v) rest

theorem dictInsert_fresh (d : PyDict) (k : String) (v : PyVal)
    (h : k ∉ dictKeys d) : dictInsert d k v = d ++ [(k, v)] := by
  induction d with
  | nil => rfl
  | cons hd tl ih =>
    have hk : hd.1 ≠ k := by
      intro hc
      exact h (by simp [dictKeys, hc])
    simp only [dictInsert, if_neg hk, List.cons_append, List.cons.injEq, true_and]
    exact ih (by intro hc; exact h (by simp [dictKeys] at hc ⊢; right; exact hc))

theorem insertAll_fresh : ∀ (entries : PyDict) (params : PyDict),
    (∀ k ∈ dictKeys entries, k ∉ dictKeys params) →
    (dictKeys entries).Nodup →
    insertAll params entries = params ++ entries := by
  intro entries
  induction entries with
  | nil => intro params _ _; simp [insertAll]
  | cons e rest ih =>
    intro params hdisj hnd
    obtain ⟨k, v⟩ := e
    have hcons : (k :: dictKeys rest).Nodup := by simpa [dictKeys] using hnd
    have hknr : k ∉ dictKeys rest := (List.nodup_cons.mp hcons).1
    have hndr : (dictKeys rest).Nodup := (List.nodup_cons.mp hcons).2
    have hk : k ∉ dictKeys params := hdisj k (by simp [dictKeys])
    simp only [insertAll]
    rw [dictInsert_fresh params k v hk]
    rw [ih (params ++ [(k, v)]) ?_ hndr]
    · simp
    · intro k2 hk2 hmem
      have hmem2 : k2 ∈ dictKeys params ∨ k2 = k := by
        simpa [dictKeys] using hmem
      rcases hmem2 with hh | hh
      · exact hdisj k2 (by simp [dictKeys] at hk2 ⊢; right; exact hk2) hh
      · subst hh
        exact hknr (by simpa [dictKeys] using hk2)

theorem inAux_spec (f : String) : ∀ (vs : List PyVal) (idx : Nat)
    (names : List String) (params : PyDict),
    inAux f vs idx names params =
      (names ++ (inNames f idx vs).map (fun k => "%(" ++ k ++ ")s"),
       insertAll params (inEntries f idx vs)) := by
  intro vs
  induction vs with
  | nil => intro idx names params; simp [inAux, inNames, inEntries, insertAll]
  | cons v rest ih =>
    intro idx names params
    simp only [inAux, inNames, inEntries, insertAll, List.map_cons]
    rw [ih]
    simp

theorem inNames_mem (f : String) : ∀ (vs : List PyVal) (idx : Nat) (k : String),
    k ∈ inNames f idx vs → ∃ j, idx ≤ j ∧ k = f ++ Nat.repr j := by
  intro vs
  induction vs with
  | nil => intro idx k h; simp [inNames] at h
  | cons v rest ih =>
    intro idx k h
    simp only [inNames, List.mem_cons] at h
    rcases h with h | h
    · exact ⟨idx, le_refl idx, h⟩
    · obtain ⟨j, hj1, hj2⟩ := ih (idx + 1) k h
      exact ⟨j, by omega, hj2⟩

theorem inNames_nodup (f : String) : ∀ (vs : List PyVal) (idx : Nat),
    (inNames f idx vs).Nodup := by
  intro vs
  induction vs with
  | nil => intro idx; simp [inNames]
  | cons v rest ih =>
    intro idx
    simp only [inNames, List.nodup_cons]
    refine ⟨?_, ih (idx + 1)⟩
    intro hmem
    obtain ⟨j, hj1, hj2⟩ := inNames_mem f rest (idx + 1) _ hmem
    have : Nat.repr idx = Nat.repr j := string_append_cancel_left hj2
    have : idx = j := nat_repr_inj this
    omega

theorem inEntries_keys (f : String) : ∀ (vs : List PyVal) (idx : Nat),
    dictKeys (inEntries f idx vs) = inNames f idx vs := by
  intro vs
  induction vs with
  | nil => intro idx; rfl
  | cons v rest ih =>
    intro idx
    simp only [inEntries, inNames, dictKeys, List.map_cons]
    rw [← ih (idx + 1)]
    rfl

theorem inNames_length (f : String) : ∀ (vs : List PyVal) (idx : Nat),
    (inNames f idx vs).length = vs.length := by
  intro vs
  induction vs with
  | nil => intro idx; rfl
  | cons v rest ih =>
    intro idx
    simp only [inNames, List.length_cons, ih (idx + 1)]

theorem isEmpty_false_of_data_ne (s : String) (h : s.data ≠ []) :
    s.isEmpty = false := by
  rw [Bool.eq_false_iff]
  intro hc
  exact h (by rw [(String.isEmpty_iff s).mp hc])

theorem parse_single (f : String) (t : Term) :
    parse none none none none [(f, t)] =
      match parseTerm none f t [] with
      | .error e => .error e
      | .ok (params, osql) =>
        .ok ⟨params,
          match osql with
          | none => "1=1"
          | some s => if s.isEmpty then "1=1" else "1=1 AND " ++ s⟩ := by
  unfold parse parseLoop
  cases ht : parseTerm none f t [] with
  | error e => simp [parseLoop]
  | ok pr =>
    obtain ⟨params, osql⟩ := pr
    cases osql with
    | none => simp [parseLoop, strJoin]
    | some s =>
      by_cases hs : s.isEmpty
      · simp [parseLoop, hs, strJoin]
      · simp only [parseLoop, hs, Bool.false_eq_true, if_false, strJoin]
        rfl

theorem parseTerm_in (f op : String) (vs : List PyVal) (params : PyDict)
    (hop : op = "IN" ∨ op = "NOT IN") :
    parseTerm none f (.multi vs op) params =
      .ok (insertAll params (inEntries ("fltr_" ++ f) 0 vs),
           some (if vs.isEmpty then "1<>1"
                 else f ++ " " ++ op ++ " (" ++
                   strJoin ", " ((inNames ("fltr_" ++ f) 0 vs).map
                     (fun k => "%(" ++ k ++ ")s")) ++ ")")) := by
  rcases hop with hop | hop <;> subst hop <;>
  · simp only [parseTerm]
    rw [if_pos (by simp [pyStrip])]
    rw [inAux_spec]
    cases vs with
    | nil => simp [inNames, inEntries, insertAll]
    | cons v rest =>
      simp only [inNames, inEntries, List.isEmpty_cons, List.map_cons,
        List.nil_append, if_neg, qualify]
      first
        | rw [show pyStrip "IN" = "IN" from rfl]
        | rw [show pyStrip "NOT IN" = "NOT IN" from rfl]
      simp

/-- C8: for an IN or NOT IN term with a non-empty sequence, the
compiled clause is `field IN (p0, p1, ...)` built from exactly
`len(sequence)` pairwise-distinct placeholder names, each bound in the
parameter mapping to the corresponding sequence element (the entries
list *is* that correspondence); with an empty sequence the clause is the
literal `1<>1` and no parameter is bound. -/
theorem parse_in_term_shape (f op : String) (vs : List PyVal)
    (hop : op = "IN" ∨ op = "NOT IN") :
    parse none none none none [(f, .multi vs op)] =
      .ok ⟨inEntries ("fltr_" ++ f) 0 vs,
           if vs.isEmpty then "1=1 AND 1<>1"
           else "1=1 AND " ++ (f ++ " " ++ op ++ " (" ++
             strJoin ", " ((inNames ("fltr_" ++ f) 0 vs).map
               (fun k => "%(" ++ k ++ ")s")) ++ ")")⟩ ∧
    (inNames ("fltr_" ++ f) 0 vs).Nodup ∧
    (inNames ("fltr_" ++ f) 0 vs).length = vs.length ∧
    dictKeys (inEntries ("fltr_" ++ f) 0 vs) = inNames ("fltr_" ++ f) 0 vs := by
  refine ⟨?_, inNames_nodup _ _ _, inNames_length _ _ _, inEntries_keys _ _ _⟩
  rw [parse_single, parseTerm_in f op vs [] hop]
  have hins : insertAll [] (inEntries ("fltr_" ++ f) 0 vs) =
      inEntries ("fltr_" ++ f) 0 vs := by
    rw [insertAll_fresh _ [] (by intro k _ hk; simp [dictKeys] at hk)
      (by rw [inEntries_keys]; exact inNames_nodup _ _ _)]
    simp
  rw [hins]
  cases vs with
  | nil => rfl
  | cons v rest =>
    simp only [List.isEmpty_cons, Bool.false_eq_true, if_false]
    rw [if_neg ?_]
    · rw [Bool.not_eq_true]
      apply isEmpty_false_of_data_ne
      intro hc
      rw [String.data_append] at hc
      rcases List.append_eq_nil.mp hc with ⟨h1, h2⟩
      exact absurd h2 (by decide)

/-- Witness for C8 at a concrete two-element IN term. -/
theorem parse_in_term_shape_witness :
    parse none none none none [("f", .multi [.vInt 7, .vInt 8] "IN")] =
      .ok ⟨inEntries ("fltr_" ++ "f") 0 [.vInt 7, .vInt 8],
           if ([PyVal.vInt 7, PyVal.vInt 8]).isEmpty then "1=1 AND 1<>1"
           else "1=1 AND " ++ ("f" ++ " " ++ "IN" ++ " (" ++
             strJoin ", " ((inNames ("fltr_" ++ "f") 0 [.vInt 7, .vInt 8]).map
               (fun k => "%(" ++ k ++ ")s")) ++ ")")⟩ ∧
    (inNames ("fltr_" ++ "f") 0 [PyVal.vInt 7, PyVal.vInt 8]).Nodup :=
  ⟨(parse_in_term_shape "f" "IN" [.vInt 7, .vInt 8] (Or.inl rfl)).1,
   (parse_in_term_shape "f" "IN" [.vInt 7, .vInt 8] (Or.inl rfl)).2.1⟩

/-- The placeholder keys generated by the LIKE branch of `parse`. -/
def likeNames (fname : String) : Nat → List PyVal → List String
  | _, [] => []
  | idx, _ :: vs => ("LKE_" ++ Nat.repr idx ++ "_" ++ fname) :: likeNames fname (idx + 1) vs

/-- The parameter entries generated by the LIKE branch of `parse`:
each keyword is bound, wrapped in `%...%`. -/
def likeEntries (fname : String) : Nat → List PyVal → PyDict
  | _, [] => []
  | idx, kw :: vs =>
    ("LKE_" ++ Nat.repr idx ++ "_" ++ fname, .vStr ("%" ++ pyFormat kw ++ "%")) ::
      likeEntries fname (idx + 1) vs

theorem likeAux_spec (fname : String) : ∀ (vs : List PyVal) (idx : Nat)
    (frags : List String) (params : PyDict),
    likeAux fname vs idx frags params =
      (frags ++ (likeNames fname idx vs).map
        (fun k => fname ++ " LIKE " ++ "%(" ++ k ++ ")s"),
       insertAll params (likeEntries fname idx vs)) := by
  intro vs
  induction vs with
  | nil => intro idx frags params; simp [likeAux, likeNames, likeEntries, insertAll]
  | cons v rest ih =>
    intro idx frags params
    simp only [likeAux, likeNames, likeEntries, insertAll, List.map_cons]
    rw [ih]
    simp

theorem likeNames_mem (fname : String) : ∀ (vs : List PyVal) (idx : Nat) (k : String),
    k ∈ likeNames fname idx vs →
    ∃ j, idx ≤ j ∧ k = "LKE_" ++ Nat.repr j ++ "_" ++ fname := by
  intro vs
  induction vs with
  | nil => intro idx k h; simp [likeNames] at h
  | cons v rest ih =>
    intro idx k h
    simp only [likeNames, List.mem_cons] at h
    rcases h with h | h
    · exact ⟨idx, le_refl idx, h⟩
    · obtain ⟨j, hj1, hj2⟩ := ih (idx + 1) k h
      exact ⟨j, by omega, hj2⟩

theorem likeNames_nodup (fname : String) : ∀ (vs : List PyVal) (idx : Nat),
    (likeNames fname idx vs).Nodup := by
  intro vs
  induction vs with
  | nil => intro idx; simp [likeNames]
  | cons v rest ih =>
    intro idx
    simp only [likeNames, List.nodup_cons]
    refine ⟨?_, ih (idx + 1)⟩
    intro hmem
    obtain ⟨j, hj1, hj2⟩ := likeNames_mem fname rest (idx + 1) _ hmem
    have h1 : ("LKE_" ++ Nat.repr idx) ++ "_" = ("LKE_" ++ Nat.repr j) ++ "_" :=
      string_append_cancel_right hj2
    have h2 : "LKE_" ++ Nat.repr idx = "LKE_" ++ Nat.repr j :=
      string_append_cancel_right h1
    have : idx = j := nat_repr_inj (string_append_cancel_left h2)
    omega

theorem likeEntries_keys (fname : String) : ∀ (vs : List PyVal) (idx : Nat),
    dictKeys (likeEntries fname idx vs) = likeNames fname idx vs := by
  intro vs
  induction vs with
  | nil => intro idx; rfl
  | cons v rest ih =>
    intro idx
    simp only [likeEntries, likeNames, dictKeys, List.map_cons]
    rw [← ih (idx + 1)]
    rfl

theorem likeNames_length (fname : String) : ∀ (vs : List PyVal) (idx : Nat),
    (likeNames fname idx vs).length = vs.length := by
  intro vs
  induction vs with
  | nil => intro idx; rfl
  | cons v rest ih =>
    intro idx
    simp only [likeNames, List.length_cons, ih (idx + 1)]

theorem parseTerm_like (f : String) (vs : List PyVal) (params : PyDict) :
    parseTerm none f (.multi vs "LIKE") params =
      .ok (insertAll params (likeEntries f 0 vs),
           some (strJoin " AND " ((likeNames f 0 vs).map
             (fun k => f ++ " LIKE " ++ "%(" ++ k ++ ")s")))) := by
  simp only [parseTerm, qualify]
  rw [if_neg (by rw [show pyStrip "LIKE" = "LIKE" from rfl]; simp)]
  rw [if_pos (by rw [show pyStrip "LIKE" = "LIKE" from rfl])]
  rw [likeAux_spec]
  simp

theorem likeEntries_zip (f : String) : ∀ (kws : List String) (idx : Nat),
    likeEntries f idx (kws.map PyVal.vStr) =
      (likeNames f idx (kws.map PyVal.vStr)).zip
        (kws.map (fun kw => PyVal.vStr ("%" ++ kw ++ "%"))) := by
  intro kws
  induction kws with
  | nil => intro idx; rfl
  | cons kw rest ih =>
    intro idx
    simp only [List.map_cons, likeEntries, likeNames, List.zip_cons_cons]
    rw [ih (idx + 1)]
    rfl

/-- C1 (amended): a `(sequence_of_strings, "LIKE")` term compiles, for
that field, to a conjunction (`AND`-join) of one LIKE predicate per
keyword, each predicate carrying its own distinct placeholder
`LKE_<idx>_<field>` bound in the parameter mapping to
`%<keyword>%`. -/
theorem parse_like_term_shape (f : String) (kws : List String) :
    parse none none none none [(f, .multi (kws.map PyVal.vStr) "LIKE")] =
      .ok ⟨likeEntries f 0 (kws.map PyVal.vStr),
           if kws.isEmpty then "1=1"
           else "1=1 AND " ++ strJoin " AND "
             ((likeNames f 0 (kws.map PyVal.vStr)).map
               (fun k => f ++ " LIKE " ++ "%(" ++ k ++ ")s"))⟩ ∧
    (likeNames f 0 (kws.map PyVal.vStr)).Nodup ∧
    (likeNames f 0 (kws.map PyVal.vStr)).length = kws.length ∧
    dictKeys (likeEntries f 0 (kws.map PyVal.vStr)) =
      likeNames f 0 (kws.map PyVal.vStr) ∧
    likeEntries f 0 (kws.map PyVal.vStr) =
      (likeNames f 0 (kws.map PyVal.vStr)).zip
        (kws.map (fun kw => PyVal.vStr ("%" ++ kw ++ "%"))) := by
  refine ⟨?_, likeNames_nodup _ _ _, by rw [likeNames_length]; simp,
    likeEntries_keys _ _ _, ?_⟩
  · rw [parse_single, parseTerm_like]
    have hins : insertAll [] (likeEntries f 0 (kws.map PyVal.vStr)) =
        likeEntries f 0 (kws.map PyVal.vStr) := by
      rw [insertAll_fresh _ [] (by intro k _ hk; simp [dictKeys] at hk)
        (by rw [likeEntries_keys]; exact likeNames_nodup _ _ _)]
      simp
    rw [hins]
    cases kws with
    | nil => rfl
    | cons kw rest =>
      simp only [List.isEmpty_cons, Bool.false_eq_true, if_false, List.map_cons,
        likeNames]
      rw [if_neg ?_]
      · rw [Bool.not_eq_true]
        apply isEmpty_false_of_data_ne
        cases hrest : likeNames f (0 + 1) (rest.map PyVal.vStr) with
        | nil =>
          simp only [strJoin, List.map_cons, hrest, List.map_nil]
          intro hc
          rw [String.data_append] at hc
          rcases List.append_eq_nil.mp hc with ⟨h1, h2⟩
          exact absurd h2 (by decide)
        | cons n7 rest7 =>
          simp only [strJoin, List.map_cons, hrest]
          intro hc
          rw [String.data_append, String.data_append] at hc
          rcases List.append_eq_nil.mp hc with ⟨h1, h2⟩
          rcases List.append_eq_nil.mp h1 with ⟨h3, h4⟩
          exact absurd h4 (by decide)
  · exact likeEntries_zip f kws 0

/-- Boundary character to comparison operator, following the spec text:
for the lower bound `(` gives `>` and `[` gives `>=`; for the upper
bound `)` gives `<` and `]` gives `<=`; anything else is invalid. -/
def boundOp (lower : Bool) (c : Char) : Option String :=
  if lower then
    if c = '(' then some ">" else if c = '[' then some ">=" else none
  else
    if c = ')' then some "<" else if c = ']' then some "<=" else none

/-- Specification-side description of the range branch on a field `f`
(with the `fltr_` parameter-name stem), written from the spec sentences
on range terms, amended per the counterexample: a falsy bound omits that
side entirely and its boundary character is then never validated; a
truthy bound with an invalid boundary character raises
`OperationalError`. -/
def rangeSpec (f : String) (lv rv : PyVal) (c0 c1 : Char) (opMsg : String) :
    Except PyErr (PyDict × Option String) :=
  let lowerPart : Except PyErr (List String × PyDict) :=
    if pyTruthy lv then
      match boundOp true c0 with
      | some o => .ok ([f ++ o ++ "%(" ++ ("fltr_" ++ f ++ o) ++ ")s"],
                       [("fltr_" ++ f ++ o, lv)])
      | none => .error (.operationalError ("Invalid Operator: " ++ opMsg))
    else .ok ([], [])
  match lowerPart with
  | .error e => .error e
  | .ok (cl, pl) =>
    if pyTruthy rv then
      match boundOp false c1 with
      | some o => .ok (pl ++ [("fltr_" ++ f ++ o, rv)],
                       some (strJoin " AND "
                         (cl ++ [f ++ o ++ "%(" ++ ("fltr_" ++ f ++ o) ++ ")s"])))
      | none => .error (.operationalError ("Invalid Operator: " ++ opMsg))
    else .ok (pl, some (strJoin " AND " cl))

theorem fltr_suffix_ne (f a b : String) (hab : a ≠ b) :
    ("fltr_" ++ f ++ a) ≠ ("fltr_" ++ f ++ b) :=
  fun h => hab (string_append_cancel_left h)

theorem rangeBranch_spec (f : String) (lv rv : PyVal) (c0 c1 : Char)
    (opMsg : String) :
    rangeBranch f ("fltr_" ++ f) lv rv c0 c1 opMsg [] =
      rangeSpec f lv rv c0 c1 opMsg := by
  have h1a : ¬ ("fltr_" ++ f ++ ">") = ("fltr_" ++ f ++ "<") :=
    fltr_suffix_ne f ">" "<" (by decide)
  have h1b : ¬ ("fltr_" ++ f ++ ">") = ("fltr_" ++ f ++ "<=") :=
    fltr_suffix_ne f ">" "<=" (by decide)
  have h1c : ¬ ("fltr_" ++ f ++ ">=") = ("fltr_" ++ f ++ "<") :=
    fltr_suffix_ne f ">=" "<" (by decide)
  have h1d : ¬ ("fltr_" ++ f ++ ">=") = ("fltr_" ++ f ++ "<=") :=
    fltr_suffix_ne f ">=" "<=" (by decide)
  unfold rangeBranch rangeLeft rangeRight rangeSpec boundOp
  by_cases h0 : pyTruthy lv = true <;>
    by_cases h1 : pyTruthy rv = true <;>
      by_cases hc0 : c0 = '(' <;> by_cases hc0b : c0 = '[' <;>
        by_cases hc1 : c1 = ')' <;> by_cases hc1b : c1 = ']' <;>
          simp_all [dictInsert]

/-- C3 (amended): on a range term, `parse` behaves exactly as the
spec-modelled `rangeSpec`: `(` maps the lower bound to `>`, `[` to
`>=`, `)` maps the upper bound to `<`, `]` to `<=`; a falsy bound
omits that side entirely (its boundary character never being
validated); a truthy bound with an invalid boundary character raises
`OperationalError`. -/
theorem parse_range_term (f : String) (lv rv : PyVal) (op : String)
    (c0 c1 : Char) (rest : List Char) (hop : op.data = c0 :: c1 :: rest)
    (hstrip : pyStrip op = op)
    (hni : op ≠ "IN") (hnni : op ≠ "NOT IN") (hnl : op ≠ "LIKE") :
    parse none none none none [(f, .multi [lv, rv] op)] =
      match rangeSpec f lv rv c0 c1 op with
      | .error e => .error e
      | .ok (params, osql) =>
        .ok ⟨params, match osql with
          | none => "1=1"
          | some s => if s.isEmpty then "1=1" else "1=1 AND " ++ s⟩ := by
  rw [parse_single]
  have hpt : parseTerm none f (.multi [lv, rv] op) [] =
      rangeBranch f ("fltr_" ++ f) lv rv c0 c1 op [] := by
    simp only [parseTerm]
    rw [hstrip]
    rw [if_neg (by push_neg; exact ⟨hni, hnni⟩), if_neg hnl]
    rw [hop]
    rfl
  rw [hpt, rangeBranch_spec]

/-- Witness for C3, which is also the range law of the spec: term
`(20, 40)` with boundary `[)` binds 20 with `>=` and 40 with `<`. -/
theorem parse_range_term_witness :
    parse none none none none [("f", .multi [.vInt 20, .vInt 40] "[)")] =
      .ok ⟨[("fltr_f>=", .vInt 20), ("fltr_f<", .vInt 40)],
           "1=1 AND f>=%(fltr_f>=)s AND f<%(fltr_f<)s"⟩ :=
  (parse_range_term "f" (.vInt 20) (.vInt 40) "[)" '[' ')' [] rfl rfl
    (by decide) (by decide) (by decide)).trans rfl

/-! ### Claim theorems -/

/-- C10: `Condition().and_nin_these(field, vals)` builds a node carrying
`Operand.IN`, so the chained NOT IN builder produces exactly the same
condition tree, and the same string form, as the chained IN builder. -/
theorem and_nin_these_eq_and_in_these (c : Condition) (f : String)
    (vs : List FieldVal) :
    and_nin_these c f vs = and_in_these c f vs ∧
    Condition.str (and_nin_these c f vs) = Condition.str (and_in_these c f vs) :=
  ⟨rfl, rfl⟩

/-- C4: evaluating the nested-scope scenario on the code: the outer
`atomic` enter at depth 0 succeeds (pushing one `_transaction`, issuing
nothing); the nested `atomic` enter at depth 1 constructs a `_savepoint`,
whose `__init__` reads the `quote` attribute that `DBApi` never defines,
and therefore raises `AttributeError` before any `SAVEPOINT` (and hence
before any possible `ROLLBACK TO SAVEPOINT`) is issued. -/
theorem nested_atomic_attribute_error :
    atomicEnter ⟨[], []⟩ "s1" = .ok (⟨[.transaction], []⟩, .transactionHelper) ∧
    atomicEnter ⟨[.transaction], []⟩ "s2" = .error .attributeError ∧
    savepointNew "s2" = .error .attributeError :=
  ⟨rfl, rfl, rfl⟩

/-- C5: `close()` on a non-deferred facade with an open transaction
raises `OperationalError` and leaves the facade state unchanged, with no
action taken against the connection; `close()` on a deferred facade
raises `InterfaceError`, likewise without touching anything. -/
theorem close_guard_errors (f : FacadeState) :
    (f.deferred = false → in_transaction f = true →
      close f = (.error (.operationalError
        "Attempting to close database while transaction is open."), f, [])) ∧
    (f.deferred = true →
      close f = (.error (.interfaceError
        "Error, database must be initialized before opening a connection."), f, [])) := by
  constructor
  · intro hd ht
    simp [close, hd, ht]
  · intro hd
    simp [close, hd]

/-- Witness for C5 at concrete facade states: one open, in-transaction
facade and one deferred facade. -/
theorem close_guard_errors_witness :
    close ⟨false, false, true, 1⟩ =
      (.error (.operationalError
        "Attempting to close database while transaction is open."),
       (⟨false, false, true, 1⟩ : FacadeState), []) ∧
    close ⟨true, true, false, 0⟩ =
      (.error (.interfaceError
        "Error, database must be initialized before opening a connection."),
       (⟨true, true, false, 0⟩ : FacadeState), []) :=
  ⟨(close_guard_errors _).1 rfl rfl, (close_guard_errors _).2 rfl⟩

/-- C2 counterexample: `parse` has no raw-literal branch.  On the string
term `"\b\"` (bounded by backslashes) it emits an ordinary parameterized
equality fragment and binds the raw string, instead of the claimed
verbatim `a=b` with no parameter entry. -/
theorem parse_raw_literal_cex :
    parse none none none none [("a", .scalar (.vStr "\\b\\"))] =
      .ok ⟨[("fltr_a", .vStr "\\b\\")], "1=1 AND a=%(fltr_a)s"⟩ ∧
    "1=1 AND a=%(fltr_a)s" ≠ "1=1 AND a=b" := by
  refine ⟨rfl, by decide⟩

/-- C2 amended: the raw-literal convention lives in `parse_join` (both
its plain-scalar and `(value, operator)` branches), not in `parse`: a
string term bounded by backslashes is emitted verbatim as
`field=<literal-with-backslashes-stripped>` and no parameter entry is
added (in the pair branch the operator is ignored as well). -/
theorem parse_join_raw_literal (f s op : String)
    (h1 : pyStartswith s "\\" = true) (h2 : pyEndswith s "\\" = true) :
    parse_join [(f, .scalar (.vStr s))] =
      .ok ⟨[], "1=1 AND " ++ (f ++ "=" ++ pyReplace s "\\" "")⟩ ∧
    parse_join [(f, .pair (.vStr s) op)] =
      .ok ⟨[], "1=1 AND " ++ (f ++ "=" ++ pyReplace s "\\" "")⟩ := by
  constructor <;>
    simp [parse_join, parseJoinLoop, parseJoinTerm, h1, h2, strJoin,
      String.append_assoc]

/-- Witness for C2 amended at `\t.b\`: the join fragment equates the two
columns verbatim with an empty parameter mapping. -/
theorem parse_join_raw_literal_witness :
    parse_join [("a", .scalar (.vStr "\\t.b\\"))] =
      .ok ⟨[], "1=1 AND a=t.b"⟩ :=
  ((parse_join_raw_literal "a" "\\t.b\\" ">=" rfl rfl).1).trans rfl

/-- C3 counterexample: an invalid boundary character on a side whose
bound is falsy does not raise: with term `((None, 40), "x)")` the `x`
boundary is never validated and `parse` succeeds. -/
theorem parse_range_invalid_boundary_falsy_cex :
    parse none none none none [("f", .multi [.vNone, .vInt 40] "x)")] =
      .ok ⟨[("fltr_f<", .vInt 40)], "1=1 AND f<%(fltr_f<)s"⟩ := by
  rfl

/-- C1 counterexample: a `(sequence_of_strings, "LIKE")` term compiles
to a conjunction — the two LIKE predicates are joined by `AND` and the
filter contains no ` OR ` at all. -/
theorem parse_like_and_not_or_cex :
    parse none none none none [("name", .multi [.vStr "a", .vStr "b"] "LIKE")] =
      .ok ⟨[("LKE_0_name", .vStr "%a%"), ("LKE_1_name", .vStr "%b%")],
        "1=1 AND name LIKE %(LKE_0_name)s AND name LIKE %(LKE_1_name)s"⟩ ∧
    ¬ (" OR ".data <:+:
        "1=1 AND name LIKE %(LKE_0_name)s AND name LIKE %(LKE_1_name)s".data) := by
  refine ⟨rfl, by decide⟩

/-- Witness for C6: a scalar base filter key `fltr_a` cannot collide
with the join parameter mapping produced for the same field name. -/
theorem parse_join_key_namespaces_disjoint_witness :
    "fltr_a" ∉ dictKeys [("joinfltr_a", PyVal.vStr "x")] :=
  parse_join_key_namespaces_disjoint none none none none
    [("a", .scalar (.vInt 1))] [("a", .scalar (.vStr "x"))]
    ⟨[("fltr_a", .vInt 1)], "1=1 AND a=%(fltr_a)s"⟩
    ⟨[("joinfltr_a", .vStr "x")], "1=1 AND a=%(joinfltr_a)s"⟩
    rfl rfl "fltr_a" (by decide)

/-! ### Placeholder extraction

`phNames` collects the names of the `%(name)s` placeholders occurring in
a string, by a single left-to-right scan; `FragOK d s` says the string
`s` decomposes into percent-free literal pieces and placeholders whose
names are keys of `d`. -/

/-- Scanner state machine: `none` means outside a placeholder, `some
acc` means inside one (after `%(`), with the name chars seen so far in
reverse. -/
def phScan : List Char → Option (List Char) → List String
  | [], _ => []
  | [_], _ => []
  | c :: c2 :: rest, none =>
    if c = '%' then
      if c2 = '(' then phScan rest (some [])
      else phScan (c2 :: rest) none
    else phScan (c2 :: rest) none
  | c :: c2 :: rest, some acc =>
    if c = ')' then
      if c2 = 's' then String.mk acc.reverse :: phScan rest none
      else phScan (c2 :: rest) none
    else phScan (c2 :: rest) (some (c :: acc))

/-- The names of all `%(name)s` placeholders occurring in `s`. -/
def phNames (s : String) : List String := phScan s.data none

theorem phScan_cons_none (c : Char) (l : List Char) (hc : c ≠ '%') :
    phScan (c :: l) none = phScan l none := by
  cases l with
  | nil => rfl
  | cons c2 rest => simp [phScan, hc]

theorem phScan_cons_some (c : Char) (l acc : List Char) (hc : c ≠ ')') :
    phScan (c :: l) (some acc) = phScan l (some (c :: acc)) := by
  cases l with
  | nil => rfl
  | cons c2 rest => simp [phScan, hc]

theorem phScan_open (rest : List Char) :
    phScan ('%' :: '(' :: rest) none = phScan rest (some []) := by
  simp [phScan]

theorem phScan_close (rest acc : List Char) :
    phScan (')' :: 's' :: rest) (some acc) =
      String.mk acc.reverse :: phScan rest none := by
  simp [phScan]

/-- A piece of a rendered SQL fragment: a literal or a placeholder. -/
inductive Seg : Type
  | lit : String → Seg
  | ph : String → Seg

/-- Render a piece: a placeholder `n` renders as `%(n)s`. -/
def segStr : Seg → String
  | .lit s => s
  | .ph n => "%(" ++ n ++ ")s"

/-- Render a list of pieces. -/
def segsRender : List Seg → String
  | [] => ""
  | sg :: rest => segStr sg ++ segsRender rest

/-- Well-formed piece: literals contain no percent sign, placeholder
names contain no closing parenthesis. -/
def segWF : Seg → Prop
  | .lit s => ¬ '%' ∈ s.data
  | .ph n => ¬ ')' ∈ n.data

/-- The placeholder names of a list of pieces, in order. -/
def segsPh : List Seg → List String
  | [] => []
  | .lit _ :: rest => segsPh rest
  | .ph n :: rest => n :: segsPh rest

theorem phScan_lit (s : List Char) (hs : ¬ '%' ∈ s) :
    ∀ tail : List Char, phScan (s ++ tail) none = phScan tail none := by
  induction s with
  | nil => intro tail; rfl
  | cons c cs ih =>
    intro tail
    have hc : c ≠ '%' := fun hcc => hs (by simp [hcc])
    rw [List.cons_append, phScan_cons_none c _ hc]
    exact ih (fun hm => hs (by simp [hm])) tail

theorem phScan_name (nm : List Char) (hn : ¬ ')' ∈ nm) :
    ∀ (acc tail : List Char),
      phScan (nm ++ ')' :: 's' :: tail) (some acc) =
        String.mk (acc.reverse ++ nm) :: phScan tail none := by
  induction nm with
  | nil =>
    intro acc tail
    rw [List.nil_append, phScan_close]
    simp
  | cons c cs ih =>
    intro acc tail
    have hc : c ≠ ')' := fun hcc => hn (by simp [hcc])
    rw [List.cons_append, phScan_cons_some c _ acc hc]
    rw [ih (fun hm => hn (by simp [hm])) (c :: acc) tail]
    simp

theorem phScan_ph (n : String) (hn : ¬ ')' ∈ n.data) (tail : List Char) :
    phScan (("%(" ++ n ++ ")s").data ++ tail) none =
      n :: phScan tail none := by
  have hd : ("%(" ++ n ++ ")s").data ++ tail =
      '%' :: '(' :: (n.data ++ ')' :: 's' :: tail) := by
    rw [String.data_append, String.data_append]
    simp
  rw [hd, phScan_open, phScan_name n.data hn [] tail]
  simp

theorem phScan_render (segs : List Seg) (hwf : ∀ sg ∈ segs, segWF sg) :
    ∀ tail : List Char,
      phScan ((segsRender segs).data ++ tail) none =
        segsPh segs ++ phScan tail none := by
  induction segs with
  | nil => intro tail; simp [segsRender, segsPh]
  | cons sg rest ih =>
    intro tail
    have hr : ∀ s2 ∈ rest, segWF s2 := fun s2 h2 => hwf s2 (by simp [h2])
    cases sg with
    | lit s =>
      have hs : ¬ '%' ∈ s.data := hwf (.lit s) (by simp)
      simp only [segsRender, segsPh, segStr]
      rw [String.data_append, List.append_assoc, phScan_lit s.data hs]
      exact ih hr tail
    | ph n =>
      have hn : ¬ ')' ∈ n.data := hwf (.ph n) (by simp)
      simp only [segsRender, segsPh, segStr]
      rw [String.data_append, List.append_assoc, phScan_ph n hn]
      rw [ih hr tail]
      simp

theorem phNames_render (segs : List Seg) (hwf : ∀ sg ∈ segs, segWF sg) :
    phNames (segsRender segs) = segsPh segs := by
  have h := phScan_render segs hwf []
  rw [List.append_nil] at h
  rw [phNames, h]
  simp [phScan]

/-- The string `s` is a well-formed fragment over the dictionary `d`:
it splits into percent-free literals and placeholders bound in `d`. -/
def FragOK (d : PyDict) (s : String) : Prop :=
  ∃ segs : List Seg, (∀ sg ∈ segs, segWF sg) ∧ segsRender segs = s ∧
    ∀ n ∈ segsPh segs, n ∈ dictKeys d

theorem phNames_of_FragOK (d : PyDict) (s : String) (h : FragOK d s) :
    ∀ n ∈ phNames s, n ∈ dictKeys d := by
  obtain ⟨segs, hwf, hrender, hsub⟩ := h
  intro n hn
  rw [← hrender, phNames_render segs hwf] at hn
  exact hsub n hn

theorem segsRender_append (a b : List Seg) :
    segsRender (a ++ b) = segsRender a ++ segsRender b := by
  induction a with
  | nil => simp [segsRender]
  | cons sg rest ih =>
    simp only [List.cons_append, segsRender, List.append_eq]
    rw [ih, String.append_assoc]

theorem segsPh_append (a b : List Seg) :
    segsPh (a ++ b) = segsPh a ++ segsPh b := by
  induction a with
  | nil => simp [segsPh]
  | cons sg rest ih =>
    cases sg with
    | lit s =>
      simp only [List.cons_append, segsPh, List.append_eq]
      rw [ih]
    | ph n =>
      simp only [List.cons_append, segsPh, List.append_eq]
      rw [ih]

theorem FragOK_empty (d : PyDict) : FragOK d "" :=
  ⟨[], by simp, rfl, by simp [segsPh]⟩

theorem FragOK_lit (d : PyDict) (s : String) (hs : ¬ '%' ∈ s.data) :
    FragOK d s := by
  refine ⟨[.lit s], ?_, ?_, ?_⟩
  · intro sg hsg
    simp at hsg
    rw [hsg]
    exact hs
  · show s ++ "" = s
    exact String.ext (by simp)
  · simp [segsPh]

theorem FragOK_ph (d : PyDict) (n : String) (hmem : n ∈ dictKeys d)
    (hn : ¬ ')' ∈ n.data) : FragOK d ("%(" ++ n ++ ")s") := by
  refine ⟨[.ph n], ?_, ?_, ?_⟩
  · intro sg hsg
    simp at hsg
    rw [hsg]
    exact hn
  · show ("%(" ++ n ++ ")s") ++ "" = "%(" ++ n ++ ")s"
    exact String.ext (by simp)
  · intro m hm
    simp [segsPh] at hm
    rw [hm]
    exact hmem

theorem FragOK_append (d : PyDict) (a b : String)
    (ha : FragOK d a) (hb : FragOK d b) : FragOK d (a ++ b) := by
  obtain ⟨sa, hwa, hra, hpa⟩ := ha
  obtain ⟨sb, hwb, hrb, hpb⟩ := hb
  refine ⟨sa ++ sb, ?_, ?_, ?_⟩
  · intro sg hsg
    rcases List.mem_append.mp hsg with h | h
    · exact hwa sg h
    · exact hwb sg h
  · rw [segsRender_append, hra, hrb]
  · intro n hn
    rw [segsPh_append] at hn
    rcases List.mem_append.mp hn with h | h
    · exact hpa n h
    · exact hpb n h

theorem FragOK_ph_after (d : PyDict) (a n : String) (ha : FragOK d a)
    (hmem : n ∈ dictKeys d) (hn : ¬ ')' ∈ n.data) :
    FragOK d (a ++ "%(" ++ n ++ ")s") := by
  have h := FragOK_append d a ("%(" ++ n ++ ")s") ha (FragOK_ph d n hmem hn)
  rw [String.append_assoc "%(" n ")s"] at h
  rw [String.append_assoc (a ++ "%(") n ")s", String.append_assoc a "%(" (n ++ ")s")]
  exact h

theorem FragOK_mono (d d2 : PyDict) (s : String)
    (hsub : ∀ k ∈ dictKeys d, k ∈ dictKeys d2) (h : FragOK d s) :
    FragOK d2 s := by
  obtain ⟨segs, hwf, hr, hp⟩ := h
  exact ⟨segs, hwf, hr, fun n hn => hsub n (hp n hn)⟩

theorem FragOK_join (d : PyDict) (sep : String) (hsep : ¬ '%' ∈ sep.data) :
    ∀ l : List String, (∀ s ∈ l, FragOK d s) → FragOK d (strJoin sep l) := by
  intro l
  induction l with
  | nil => intro _; exact FragOK_empty d
  | cons x xs ih =>
    intro hl
    cases xs with
    | nil => exact hl x (by simp)
    | cons y ys =>
      show FragOK d (x ++ sep ++ strJoin sep (y :: ys))
      exact FragOK_append d _ _
        (FragOK_append d _ _ (hl x (by simp)) (FragOK_lit d sep hsep))
        (ih (fun s hs => hl s (by simp [hs])))

/-! ### Cleanliness hypotheses and key monotonicity -/

/-- No percent sign in the string (safe as literal text). -/
abbrev noPct (s : String) : Prop := ¬ '%' ∈ s.data

/-- No closing parenthesis in the string (safe as placeholder name). -/
abbrev noRp (s : String) : Prop := ¬ ')' ∈ s.data

/-- Clean identifier: usable both as literal text and inside
placeholder names. -/
abbrev CleanName (s : String) : Prop := noPct s ∧ noRp s

theorem noPct_append (a b : String) (ha : noPct a) (hb : noPct b) :
    noPct (a ++ b) := by
  intro hm
  rw [String.data_append] at hm
  rcases List.mem_append.mp hm with h | h
  · exact ha h
  · exact hb h

theorem noRp_append (a b : String) (ha : noRp a) (hb : noRp b) :
    noRp (a ++ b) := by
  intro hm
  rw [String.data_append] at hm
  rcases List.mem_append.mp hm with h | h
  · exact ha h
  · exact hb h

theorem cleanName_append (a b : String) (ha : CleanName a) (hb : CleanName b) :
    CleanName (a ++ b) :=
  ⟨noPct_append a b ha.1 hb.1, noRp_append a b ha.2 hb.2⟩

theorem noPct_repr (n : Nat) : noPct (Nat.repr n) := by
  intro hm
  exact (repr_chars n _ hm).2.1 rfl

theorem noRp_repr (n : Nat) : noRp (Nat.repr n) := by
  intro hm
  exact (repr_chars n _ hm).1 rfl

theorem cleanName_repr (n : Nat) : CleanName (Nat.repr n) :=
  ⟨noPct_repr n, noRp_repr n⟩

theorem dictInsert_keys_mono (d : PyDict) (k2 : String) (v : PyVal) :
    ∀ k ∈ dictKeys d, k ∈ dictKeys (dictInsert d k2 v) := by
  induction d with
  | nil => intro k hk; simp [dictKeys] at hk
  | cons hd tl ih =>
    intro k hk
    by_cases he : hd.1 = k2
    · simp [dictInsert, he, dictKeys] at hk ⊢
      rcases hk with h | h
      · left; exact h
      · right; exact h
    · simp [dictInsert, he, dictKeys] at hk ⊢
      rcases hk with h | h
      · left; exact h
      · right
        have := ih k (by simpa [dictKeys] using h)
        simpa [dictKeys] using this

theorem dictInsert_keys_self (d : PyDict) (k : String) (v : PyVal) :
    k ∈ dictKeys (dictInsert d k v) := by
  induction d with
  | nil => simp [dictInsert, dictKeys]
  | cons hd tl ih =>
    by_cases he : hd.1 = k
    · simp [dictInsert, he, dictKeys]
    · simp [dictInsert, he, dictKeys]
      right
      simpa [dictKeys] using ih

theorem insertAll_keys_left : ∀ (entries params : PyDict),
    ∀ k ∈ dictKeys params, k ∈ dictKeys (insertAll params entries) := by
  intro entries
  induction entries with
  | nil => intro params k hk; exact hk
  | cons e rest ih =>
    intro params k hk
    obtain ⟨k2, v⟩ := e
    exact ih (dictInsert params k2 v) k (dictInsert_keys_mono params k2 v k hk)

theorem insertAll_keys_right : ∀ (entries params : PyDict),
    ∀ k ∈ dictKeys entries, k ∈ dictKeys (insertAll params entries) := by
  intro entries
  induction entries with
  | nil => intro params k hk; simp [dictKeys] at hk
  | cons e rest ih =>
    intro params k hk
    obtain ⟨k2, v⟩ := e
    rcases (by simpa [dictKeys] using hk :
        k = k2 ∨ k ∈ dictKeys rest) with h | h
    · subst h
      exact insertAll_keys_left rest (dictInsert params k v)
        k (dictInsert_keys_self params k v)
    · exact ih (dictInsert params k2 v) k h

theorem rangeLeft_frag (fname f_fname : String) (v0 : PyVal) (c0 : Char)
    (opMsg : String) (params : PyDict) (res : List String × PyDict)
    (hfn : noPct fname) (hff : CleanName f_fname)
    (h : rangeLeft fname f_fname v0 c0 opMsg params = .ok res) :
    (∀ k ∈ dictKeys params, k ∈ dictKeys res.2) ∧
    (∀ s ∈ res.1, FragOK res.2 s) := by
  unfold rangeLeft at h
  split at h
  · split at h
    · injection h with he
      subst he
      refine ⟨dictInsert_keys_mono params _ v0, ?_⟩
      intro s hs
      simp at hs
      subst hs
      refine FragOK_ph_after _ (fname ++ ">") _ ?_ ?_ ?_
      · exact FragOK_lit _ _ (noPct_append fname ">" hfn (by decide))
      · exact dictInsert_keys_self params _ v0
      · exact noRp_append f_fname ">" hff.2 (by decide)
    · split at h
      · injection h with he
        subst he
        refine ⟨dictInsert_keys_mono params _ v0, ?_⟩
        intro s hs
        simp at hs
        subst hs
        refine FragOK_ph_after _ (fname ++ ">=") _ ?_ ?_ ?_
        · exact FragOK_lit _ _ (noPct_append fname ">=" hfn (by decide))
        · exact dictInsert_keys_self params _ v0
        · exact noRp_append f_fname ">=" hff.2 (by decide)
      · exact absurd h (by simp)
  · injection h with he
    subst he
    exact ⟨fun k hk => hk, by intro s hs; simp at hs⟩

theorem rangeRight_frag (fname f_fname : String) (v1 : PyVal) (c1 : Char)
    (opMsg : String) (rts : List String) (params1 : PyDict)
    (res : PyDict × Option String)
    (hfn : noPct fname) (hff : CleanName f_fname)
    (hrts : ∀ s ∈ rts, FragOK params1 s)
    (h : rangeRight fname f_fname v1 c1 opMsg rts params1 = .ok res) :
    (∀ k ∈ dictKeys params1, k ∈ dictKeys res.1) ∧
    (∀ s, res.2 = some s → FragOK res.1 s) := by
  unfold rangeRight at h
  split at h
  · split at h
    · injection h with he
      subst he
      refine ⟨dictInsert_keys_mono params1 _ v1, ?_⟩
      intro s hs
      injection hs with hs2
      subst hs2
      refine FragOK_join _ " AND " (by decide) _ ?_
      intro s2 hs2
      rcases List.mem_append.mp hs2 with hh | hh
      · exact FragOK_mono params1 _ s2 (dictInsert_keys_mono params1 _ v1) (hrts s2 hh)
      · simp at hh
        subst hh
        refine FragOK_ph_after _ (fname ++ "<") _ ?_ ?_ ?_
        · exact FragOK_lit _ _ (noPct_append fname "<" hfn (by decide))
        · exact dictInsert_keys_self params1 _ v1
        · exact noRp_append f_fname "<" hff.2 (by decide)
    · split at h
      · injection h with he
        subst he
        refine ⟨dictInsert_keys_mono params1 _ v1, ?_⟩
        intro s hs
        injection hs with hs2
        subst hs2
        refine FragOK_join _ " AND " (by decide) _ ?_
        intro s2 hs2
        rcases List.mem_append.mp hs2 with hh | hh
        · exact FragOK_mono params1 _ s2 (dictInsert_keys_mono params1 _ v1) (hrts s2 hh)
        · simp at hh
          subst hh
          refine FragOK_ph_after _ (fname ++ "<=") _ ?_ ?_ ?_
          · exact FragOK_lit _ _ (noPct_append fname "<=" hfn (by decide))
          · exact dictInsert_keys_self params1 _ v1
          · exact noRp_append f_fname "<=" hff.2 (by decide)
      · exact absurd h (by simp)
  · injection h with he
    subst he
    refine ⟨fun k hk => hk, ?_⟩
    intro s hs
    injection hs with hs2
    subst hs2
    exact FragOK_join _ " AND " (by decide) _ hrts

theorem rangeBranch_frag (fname f_fname : String) (v0 v1 : PyVal)
    (c0 c1 : Char) (opMsg : String) (params : PyDict)
    (res : PyDict × Option String)
    (hfn : noPct fname) (hff : CleanName f_fname)
    (h : rangeBranch fname f_fname v0 v1 c0 c1 opMsg params = .ok res) :
    (∀ k ∈ dictKeys params, k ∈ dictKeys res.1) ∧
    (∀ s, res.2 = some s → FragOK res.1 s) := by
  unfold rangeBranch at h
  split at h
  · exact absurd h (by simp)
  · rename_i rts params1 hstep
    have hl := rangeLeft_frag fname f_fname v0 c0 opMsg params (rts, params1)
      hfn hff hstep
    have hr := rangeRight_frag fname f_fname v1 c1 opMsg rts params1 res
      hfn hff hl.2 h
    exact ⟨fun k hk => hr.1 k (hl.1 k hk), hr.2⟩

/-- The keys generated by the LIKE branch of `parse_join`. -/
def joinLikeNames (f_fname : String) : Nat → List PyVal → List String
  | _, [] => []
  | idx, _ :: vs =>
    ("joinfltrLKE_" ++ Nat.repr idx ++ "_" ++ f_fname) :: joinLikeNames f_fname (idx + 1) vs

/-- The entries generated by the LIKE branch of `parse_join`. -/
def joinLikeEntries (f_fname : String) : Nat → List PyVal → PyDict
  | _, [] => []
  | idx, kw :: vs =>
    ("joinfltrLKE_" ++ Nat.repr idx ++ "_" ++ f_fname, .vStr ("%" ++ pyFormat kw ++ "%")) ::
      joinLikeEntries f_fname (idx + 1) vs

theorem joinLikeAux_spec (f_fname : String) : ∀ (vs : List PyVal) (idx : Nat)
    (frags : List String) (params : PyDict),
    joinLikeAux f_fname vs idx frags params =
      (frags ++ (joinLikeNames f_fname idx vs).map
        (fun k => f_fname ++ " LIKE " ++ "%(" ++ k ++ ")s"),
       insertAll params (joinLikeEntries f_fname idx vs)) := by
  intro vs
  induction vs with
  | nil => intro idx frags params; simp [joinLikeAux, joinLikeNames, joinLikeEntries, insertAll]
  | cons v rest ih =>
    intro idx frags params
    simp only [joinLikeAux, joinLikeNames, joinLikeEntries, insertAll, List.map_cons]
    rw [ih]
    simp

theorem joinLikeNames_mem (f_fname : String) : ∀ (vs : List PyVal) (idx : Nat) (k : String),
    k ∈ joinLikeNames f_fname idx vs →
    ∃ j, k = "joinfltrLKE_" ++ Nat.repr j ++ "_" ++ f_fname := by
  intro vs
  induction vs with
  | nil => intro idx k h; simp [joinLikeNames] at h
  | cons v rest ih =>
    intro idx k h
    simp only [joinLikeNames, List.mem_cons] at h
    rcases h with h | h
    · exact ⟨idx, h⟩
    · exact ih (idx + 1) k h

theorem joinLikeEntries_keys (f_fname : String) : ∀ (vs : List PyVal) (idx : Nat),
    dictKeys (joinLikeEntries f_fname idx vs) = joinLikeNames f_fname idx vs := by
  intro vs
  induction vs with
  | nil => intro idx; rfl
  | cons v rest ih =>
    intro idx
    simp only [joinLikeEntries, joinLikeNames, dictKeys, List.map_cons]
    rw [← ih (idx + 1)]
    rfl

/-- Cleanliness of a term value with respect to the raw-literal path of
`parse_join`: if the string is backslash-bounded, its stripped form must
be percent-free (it is inlined into the filter text). -/
def rawClean : PyVal → Prop
  | .vStr s => (pyStartswith s "\\" && pyEndswith s "\\") = true →
      noPct (pyReplace s "\\" "")
  | _ => True

/-- Cleanliness of one filter term: operators that reach the filter text
are percent-free, and raw-literal strings are percent-free once
stripped. -/
def CleanTerm : Term → Prop
  | .scalar v => rawClean v
  | .pair v op => noPct op ∧ noPct (pyStrip op) ∧ rawClean v
  | .multi _ _ => True

/-- Cleanliness of the optional table alias. -/
def CleanOptName : Option String → Prop
  | none => True
  | some t => CleanName t

/-- Cleanliness of the optional ORDER BY text. -/
def CleanOrder : Option String → Prop
  | none => True
  | some ob => noPct ob

theorem qualify_clean (tn : Option String) (f : String)
    (htn : CleanOptName tn) (hf : CleanName f) : CleanName (qualify tn f) := by
  cases tn with
  | none => exact hf
  | some t =>
    simp only [qualify]
    split
    · exact hf
    · exact cleanName_append _ _ (cleanName_append _ _ htn ⟨by decide, by decide⟩) hf

theorem parseTerm_frag (tn : Option String) (f : String) (t : Term)
    (params : PyDict) (res : PyDict × Option String)
    (htn : CleanOptName tn) (hf : CleanName f) (ht : CleanTerm t)
    (h : parseTerm tn f t params = .ok res) :
    (∀ k ∈ dictKeys params, k ∈ dictKeys res.1) ∧
    (∀ s, res.2 = some s → FragOK res.1 s) := by
  have hq : CleanName (qualify tn f) := qualify_clean tn f htn hf
  have hff : CleanName ("fltr_" ++ f) :=
    cleanName_append _ _ ⟨by decide, by decide⟩ hf
  cases t with
  | scalar v =>
    cases v with
    | vNone =>
      simp only [parseTerm] at h
      injection h with he
      subst he
      exact ⟨fun k hk => hk, by intro s hs; exact absurd hs (by simp)⟩
    | vStr s0 =>
      simp only [parseTerm] at h
      injection h with he
      subst he
      refine ⟨dictInsert_keys_mono params _ _, ?_⟩
      intro s hs
      injection hs with hs2
      subst hs2
      refine FragOK_ph_after _ (qualify tn f ++ "=") _ ?_ ?_ ?_
      · exact FragOK_lit _ _ (noPct_append _ "=" hq.1 (by decide))
      · exact dictInsert_keys_self params _ _
      · exact hff.2
    | vInt n =>
      simp only [parseTerm] at h
      injection h with he
      subst he
      refine ⟨dictInsert_keys_mono params _ _, ?_⟩
      intro s hs
      injection hs with hs2
      subst hs2
      refine FragOK_ph_after _ (qualify tn f ++ "=") _ ?_ ?_ ?_
      · exact FragOK_lit _ _ (noPct_append _ "=" hq.1 (by decide))
      · exact dictInsert_keys_self params _ _
      · exact hff.2
  | pair v opRaw =>
    cases v with
    | vNone =>
      simp only [parseTerm] at h
      injection h with he
      subst he
      exact ⟨fun k hk => hk, by intro s hs; exact absurd hs (by simp)⟩
    | vStr s0 =>
      simp only [parseTerm] at h
      injection h with he
      subst he
      refine ⟨dictInsert_keys_mono params _ _, ?_⟩
      intro s hs
      injection hs with hs2
      subst hs2
      refine FragOK_ph_after _ (qualify tn f ++ " " ++ pyStrip opRaw ++ " ") _ ?_ ?_ ?_
      · refine FragOK_lit _ _ ?_
        refine noPct_append _ " " ?_ (by decide)
        refine noPct_append _ _ ?_ ht.2.1
        exact noPct_append _ " " hq.1 (by decide)
      · exact dictInsert_keys_self params _ _
      · exact hff.2
    | vInt n =>
      simp only [parseTerm] at h
      injection h with he
      subst he
      refine ⟨dictInsert_keys_mono params _ _, ?_⟩
      intro s hs
      injection hs with hs2
      subst hs2
      refine FragOK_ph_after _ (qualify tn f ++ " " ++ pyStrip opRaw ++ " ") _ ?_ ?_ ?_
      · refine FragOK_lit _ _ ?_
        refine noPct_append _ " " ?_ (by decide)
        refine noPct_append _ _ ?_ ht.2.1
        exact noPct_append _ " " hq.1 (by decide)
      · exact dictInsert_keys_self params _ _
      · exact hff.2
  | multi vs opRaw =>
    simp only [parseTerm] at h
    rw [inAux_spec] at h
    split at h
    · rename_i hcond
      split at h
      · injection h with he
        subst he
        refine ⟨fun k hk => insertAll_keys_left _ params k hk, ?_⟩
        intro s hs
        injection hs with hs2
        subst hs2
        exact FragOK_lit _ _ (by decide)
      · rename_i hnonempty
        injection h with he
        subst he
        refine ⟨fun k hk => insertAll_keys_left _ params k hk, ?_⟩
        intro s hs
        injection hs with hs2
        subst hs2
        refine FragOK_append _ _ ")" ?_ (FragOK_lit _ _ (by decide))
        refine FragOK_append _ _ _ ?_ ?_
        · refine FragOK_lit _ _ ?_
          refine noPct_append _ " (" ?_ (by decide)
          refine noPct_append _ _ ?_ ?_
          · exact noPct_append _ " " hq.1 (by decide)
          · rcases hcond with hc | hc <;> rw [hc] <;> decide
        · refine FragOK_join _ ", " (by decide) _ ?_
          intro s2 hs2
          simp only [List.nil_append, List.mem_map] at hs2
          obtain ⟨k, hk, hks⟩ := hs2
          subst hks
          obtain ⟨j, _, hkj⟩ := inNames_mem _ _ _ _ hk
          refine FragOK_ph _ k ?_ ?_
          · refine insertAll_keys_right _ params k ?_
            rw [inEntries_keys]
            exact hk
          · rw [hkj]
            exact noRp_append _ _ hff.2 (noRp_repr j)
    · split at h
      · rw [likeAux_spec] at h
        injection h with he
        subst he
        refine ⟨fun k hk => insertAll_keys_left _ params k hk, ?_⟩
        intro s hs
        injection hs with hs2
        subst hs2
        refine FragOK_join _ " AND " (by decide) _ ?_
        intro s2 hs2
        simp only [List.nil_append, List.mem_map] at hs2
        obtain ⟨k, hk, hks⟩ := hs2
        subst hks
        obtain ⟨j, _, hkj⟩ := likeNames_mem _ _ _ _ hk
        refine FragOK_ph_after _ (qualify tn f ++ " LIKE ") _ ?_ ?_ ?_
        · exact FragOK_lit _ _ (noPct_append _ " LIKE " hq.1 (by decide))
        · refine insertAll_keys_right _ params k ?_
          rw [likeEntries_keys]
          exact hk
        · rw [hkj]
          refine noRp_append _ _ ?_ hq.2
          refine noRp_append _ _ ?_ (by decide)
          exact noRp_append _ _ (by decide) (noRp_repr j)
      · split at h
        · exact rangeBranch_frag _ _ _ _ _ _ _ params res hq.1 hff h
        · exact absurd h (by simp)

theorem parseJoinTerm_frag (f : String) (t : Term)
    (params : PyDict) (res : PyDict × Option String)
    (hf : CleanName f) (ht : CleanTerm t)
    (h : parseJoinTerm f t params = .ok res) :
    (∀ k ∈ dictKeys params, k ∈ dictKeys res.1) ∧
    (∀ s, res.2 = some s → FragOK res.1 s) := by
  have hff : CleanName ("joinfltr_" ++ f) :=
    cleanName_append _ _ ⟨by decide, by decide⟩ hf
  cases t with
  | scalar v =>
    cases v with
    | vNone =>
      simp only [parseJoinTerm] at h
      injection h with he
      subst he
      exact ⟨fun k hk => hk, by intro s hs; exact absurd hs (by simp)⟩
    | vInt n => exact absurd h (by simp [parseJoinTerm])
    | vStr s0 =>
      simp only [parseJoinTerm] at h
      split at h
      · rename_i hraw
        injection h with he
        subst he
        refine ⟨fun k hk => hk, ?_⟩
        intro s hs
        injection hs with hs2
        subst hs2
        refine FragOK_lit _ _ ?_
        refine noPct_append _ _ ?_ (ht hraw)
        exact noPct_append _ "=" hf.1 (by decide)
      · injection h with he
        subst he
        refine ⟨dictInsert_keys_mono params _ _, ?_⟩
        intro s hs
        injection hs with hs2
        subst hs2
        refine FragOK_ph_after _ (f ++ "=") _ ?_ ?_ ?_
        · exact FragOK_lit _ _ (noPct_append _ "=" hf.1 (by decide))
        · exact dictInsert_keys_self params _ _
        · exact hff.2
  | pair v opRaw =>
    cases v with
    | vNone =>
      simp only [parseJoinTerm] at h
      injection h with he
      subst he
      exact ⟨fun k hk => hk, by intro s hs; exact absurd hs (by simp)⟩
    | vInt n => exact absurd h (by simp [parseJoinTerm])
    | vStr s0 =>
      simp only [parseJoinTerm] at h
      split at h
      · rename_i hraw
        injection h with he
        subst he
        refine ⟨fun k hk => hk, ?_⟩
        intro s hs
        injection hs with hs2
        subst hs2
        refine FragOK_lit _ _ ?_
        refine noPct_append _ _ ?_ (ht.2.2 hraw)
        exact noPct_append _ "=" hf.1 (by decide)
      · injection h with he
        subst he
        refine ⟨dictInsert_keys_mono params _ _, ?_⟩
        intro s hs
        injection hs with hs2
        subst hs2
        refine FragOK_ph_after _ (f ++ " " ++ opRaw ++ " ") _ ?_ ?_ ?_
        · refine FragOK_lit _ _ ?_
          refine noPct_append _ " " ?_ (by decide)
          refine noPct_append _ _ ?_ ht.1
          exact noPct_append _ " " hf.1 (by decide)
        · exact dictInsert_keys_self params _ _
        · exact hff.2
  | multi vs opRaw =>
    simp only [parseJoinTerm] at h
    rw [inAux_spec] at h
    split at h
    · rename_i hcond
      split at h
      · injection h with he
        subst he
        refine ⟨fun k hk => insertAll_keys_left _ params k hk, ?_⟩
        intro s hs
        injection hs with hs2
        subst hs2
        exact FragOK_lit _ _ (by decide)
      · injection h with he
        subst he
        refine ⟨fun k hk => insertAll_keys_left _ params k hk, ?_⟩
        intro s hs
        injection hs with hs2
        subst hs2
        refine FragOK_append _ _ ")" ?_ (FragOK_lit _ _ (by decide))
        refine FragOK_append _ _ _ ?_ ?_
        · refine FragOK_lit _ _ ?_
          refine noPct_append _ " (" ?_ (by decide)
          refine noPct_append _ _ ?_ ?_
          · exact noPct_append _ " " hf.1 (by decide)
          · rcases hcond with hc | hc <;> rw [hc] <;> decide
        · refine FragOK_join _ ", " (by decide) _ ?_
          intro s2 hs2
          simp only [List.nil_append, List.mem_map] at hs2
          obtain ⟨k, hk, hks⟩ := hs2
          subst hks
          obtain ⟨j, _, hkj⟩ := inNames_mem _ _ _ _ hk
          refine FragOK_ph _ k ?_ ?_
          · refine insertAll_keys_right _ params k ?_
            rw [inEntries_keys]
            exact hk
          · rw [hkj]
            exact noRp_append _ _ hff.2 (noRp_repr j)
    · split at h
      · rw [joinLikeAux_spec] at h
        injection h with he
        subst he
        refine ⟨fun k hk => insertAll_keys_left _ params k hk, ?_⟩
        intro s hs
        injection hs with hs2
        subst hs2
        refine FragOK_join _ " AND " (by decide) _ ?_
        intro s2 hs2
        simp only [List.nil_append, List.mem_map] at hs2
        obtain ⟨k, hk, hks⟩ := hs2
        subst hks
        obtain ⟨j, hkj⟩ := joinLikeNames_mem _ _ _ _ hk
        refine FragOK_ph_after _ ("joinfltr_" ++ f ++ " LIKE ") _ ?_ ?_ ?_
        · exact FragOK_lit _ _ (noPct_append _ " LIKE " hff.1 (by decide))
        · refine insertAll_keys_right _ params k ?_
          rw [joinLikeEntries_keys]
          exact hk
        · rw [hkj]
          refine noRp_append _ _ ?_ hff.2
          refine noRp_append _ _ ?_ (by decide)
          exact noRp_append _ _ (by decide) (noRp_repr j)
      · split at h
        · exact rangeBranch_frag _ _ _ _ _ _ _ params res hf.1 hff h
        · exact absurd h (by simp)

theorem parseLoop_frag (tn : Option String) (htn : CleanOptName tn) :
    ∀ (terms : List (String × Term)) (params : PyDict) (sqls : List String)
      (res : PyDict × List String),
      (∀ p ∈ terms, CleanName p.1 ∧ CleanTerm p.2) →
      (∀ s ∈ sqls, FragOK params s) →
      parseLoop tn terms params sqls = .ok res →
      (∀ k ∈ dictKeys params, k ∈ dictKeys res.1) ∧
      (∀ s ∈ res.2, FragOK res.1 s) := by
  intro terms
  induction terms with
  | nil =>
    intro params sqls res _ hsqls h
    simp only [parseLoop] at h
    injection h with he
    subst he
    exact ⟨fun k hk => hk, hsqls⟩
  | cons p rest ih =>
    intro params sqls res hterms hsqls h
    obtain ⟨f, t⟩ := p
    simp only [parseLoop] at h
    cases ht : parseTerm tn f t params with
    | error e => rw [ht] at h; exact absurd h (by simp)
    | ok pr =>
      rw [ht] at h
      dsimp only at h
      have hp := parseTerm_frag tn f t params pr htn
        (hterms (f, t) (by simp)).1 (hterms (f, t) (by simp)).2 ht
      have hsqls1 : ∀ s ∈ (match pr.2 with
          | some s => if s.isEmpty then sqls else sqls ++ [s]
          | none => sqls), FragOK pr.1 s := by
        cases ho : pr.2 with
        | none =>
          intro s hs
          exact FragOK_mono params _ s hp.1 (hsqls s hs)
        | some s2 =>
          by_cases he : s2.isEmpty
          · simp only [he, if_true]
            intro s hs
            exact FragOK_mono params _ s hp.1 (hsqls s hs)
          · simp only [he, Bool.false_eq_true, if_false]
            intro s hs
            rcases List.mem_append.mp hs with hh | hh
            · exact FragOK_mono params _ s hp.1 (hsqls s hh)
            · simp at hh
              subst hh
              exact hp.2 s (by rw [ho])
      have hrec := ih pr.1 _ res
        (fun p2 h2 => hterms p2 (by simp [h2])) hsqls1 ?_
      · exact ⟨fun k hk => hrec.1 k (hp.1 k hk), hrec.2⟩
      · cases hpr2 : pr.2 with
        | none => rw [hpr2] at h; exact h
        | some s2 => rw [hpr2] at h; exact h

theorem parseJoinLoop_frag :
    ∀ (terms : List (String × Term)) (params : PyDict) (sqls : List String)
      (res : PyDict × List String),
      (∀ p ∈ terms, CleanName p.1 ∧ CleanTerm p.2) →
      (∀ s ∈ sqls, FragOK params s) →
      parseJoinLoop terms params sqls = .ok res →
      (∀ k ∈ dictKeys params, k ∈ dictKeys res.1) ∧
      (∀ s ∈ res.2, FragOK res.1 s) := by
  intro terms
  induction terms with
  | nil =>
    intro params sqls res _ hsqls h
    simp only [parseJoinLoop] at h
    injection h with he
    subst he
    exact ⟨fun k hk => hk, hsqls⟩
  | cons p rest ih =>
    intro params sqls res hterms hsqls h
    obtain ⟨f, t⟩ := p
    simp only [parseJoinLoop] at h
    cases ht : parseJoinTerm f t params with
    | error e => rw [ht] at h; exact absurd h (by simp)
    | ok pr =>
      rw [ht] at h
      dsimp only at h
      have hp := parseJoinTerm_frag f t params pr
        (hterms (f, t) (by simp)).1 (hterms (f, t) (by simp)).2 ht
      have hsqls1 : ∀ s ∈ (match pr.2 with
          | some s => sqls ++ [s]
          | none => sqls), FragOK pr.1 s := by
        cases ho : pr.2 with
        | none =>
          intro s hs
          exact FragOK_mono params _ s hp.1 (hsqls s hs)
        | some s2 =>
          intro s hs
          rcases List.mem_append.mp hs with hh | hh
          · exact FragOK_mono params _ s hp.1 (hsqls s hh)
          · simp at hh
            subst hh
            exact hp.2 s (by rw [ho])
      have hrec := ih pr.1 _ res
        (fun p2 h2 => hterms p2 (by simp [h2])) hsqls1 ?_
      · exact ⟨fun k hk => hrec.1 k (hp.1 k hk), hrec.2⟩
      · cases hpr2 : pr.2 with
        | none => rw [hpr2] at h; exact h
        | some s2 => rw [hpr2] at h; exact h

theorem pagination_frag (params : PyDict) (F : String) (pg sz : Option Int)
    (r : ParsedResult) (hf : FragOK params F)
    (h : (match pg, sz with
          | some p, some z =>
            Except.ok (ParsedResult.mk
              (dictInsert (dictInsert params "page_from"
                  (PyVal.vInt (max 0 (p - 1) * max 1 z)))
                "page_to" (PyVal.vInt (max 1 z)))
              (F ++ " LIMIT %(page_from)s, %(page_to)s"))
          | _, _ => Except.ok ⟨params, F⟩) = (.ok r : Except PyErr ParsedResult)) :
    ∀ n ∈ phNames r.filter, n ∈ dictKeys r.param := by
  cases pg with
  | none =>
    cases sz with
    | none =>
      injection h with he
      subst he
      exact phNames_of_FragOK _ _ hf
    | some z =>
      injection h with he
      subst he
      exact phNames_of_FragOK _ _ hf
  | some p =>
    cases sz with
    | none =>
      injection h with he
      subst he
      exact phNames_of_FragOK _ _ hf
    | some z =>
      injection h with he
      subst he
      refine phNames_of_FragOK _ _ ?_
      have hmono : ∀ k ∈ dictKeys params,
          k ∈ dictKeys (dictInsert (dictInsert params "page_from"
            (PyVal.vInt (max 0 (p - 1) * max 1 z))) "page_to"
            (PyVal.vInt (max 1 z))) := by
        intro k hk
        exact dictInsert_keys_mono _ _ _ k (dictInsert_keys_mono _ _ _ k hk)
      refine FragOK_append _ _ " LIMIT %(page_from)s, %(page_to)s" ?_ ?_
      · exact FragOK_mono _ _ _ hmono hf
      · refine ⟨[.lit " LIMIT ", .ph "page_from", .lit ", ", .ph "page_to"],
          ?_, by decide, ?_⟩
        · intro sg hsg
          simp at hsg
          rcases hsg with h1 | h1 | h1 | h1 <;> (rw [h1]; simp only [segWF]; decide)
        · intro n hn
          simp [segsPh] at hn
          rcases hn with h1 | h1 <;> subst h1
          · exact dictInsert_keys_mono _ _ _ _ (dictInsert_keys_self _ _ _)
          · exact dictInsert_keys_self _ _ _

/-- C7 (amended): provided the caller-controlled text that is copied
verbatim into the filter contains no percent sign (field names,
operators, the order-by text, stripped raw-literal strings) and field
and table names contain no closing parenthesis, every `%(name)s`
placeholder occurring in the filter returned by `parse` or `parse_join`
has `name` present as a key of the returned parameter mapping. -/
theorem placeholders_bound :
    (∀ (tn ob : Option String) (pg sz : Option Int)
       (terms : List (String × Term)) (r : ParsedResult),
       CleanOptName tn → CleanOrder ob →
       (∀ p ∈ terms, CleanName p.1 ∧ CleanTerm p.2) →
       parse tn ob pg sz terms = .ok r →
       ∀ n ∈ phNames r.filter, n ∈ dictKeys r.param) ∧
    (∀ (terms : List (String × Term)) (r : ParsedResult),
       (∀ p ∈ terms, CleanName p.1 ∧ CleanTerm p.2) →
       parse_join terms = .ok r →
       ∀ n ∈ phNames r.filter, n ∈ dictKeys r.param) := by
  constructor
  · intro tn ob pg sz terms r htn hob hterms h
    unfold parse at h
    cases hL : parseLoop tn terms [] ["1=1"] with
    | error e => rw [hL] at h; exact absurd h (by simp)
    | ok res =>
      rw [hL] at h
      dsimp only at h
      have hloop := parseLoop_frag tn htn terms [] ["1=1"] res hterms
        (by
          intro s hs
          simp at hs
          subst hs
          exact FragOK_lit _ _ (by decide)) hL
      have hfilters : FragOK res.1 (strJoin " AND " res.2) :=
        FragOK_join _ " AND " (by decide) _ hloop.2
      cases ob with
      | none => exact pagination_frag res.1 _ pg sz r hfilters h
      | some o =>
        by_cases ho : o.isEmpty
        · simp only [ho, if_true] at h
          exact pagination_frag res.1 _ pg sz r hfilters h
        · simp only [ho, Bool.false_eq_true, if_false] at h
          refine pagination_frag res.1 _ pg sz r ?_ h
          refine FragOK_append _ _ o ?_ (FragOK_lit _ _ hob)
          exact FragOK_append _ _ " ORDER BY " hfilters (FragOK_lit _ _ (by decide))
  · intro terms r hterms h
    unfold parse_join at h
    cases hL : parseJoinLoop terms [] ["1=1"] with
    | error e => rw [hL] at h; exact absurd h (by simp)
    | ok res =>
      rw [hL] at h
      dsimp only at h
      injection h with he
      subst he
      have hloop := parseJoinLoop_frag terms [] ["1=1"] res hterms
        (by
          intro s hs
          simp at hs
          subst hs
          exact FragOK_lit _ _ (by decide)) hL
      exact phNames_of_FragOK _ _ (FragOK_join _ " AND " (by decide) _ hloop.2)

/-- C7 counterexample: an operator string containing placeholder text
is copied verbatim into the filter, producing the placeholder `evil`
with no corresponding parameter key. -/
theorem placeholders_unbound_cex :
    parse none none none none [("a", .pair (.vStr "v") "= %(evil)s")] =
      .ok ⟨[("fltr_a", .vStr "v")], "1=1 AND a = %(evil)s %(fltr_a)s"⟩ ∧
    "evil" ∈ phNames "1=1 AND a = %(evil)s %(fltr_a)s" ∧
    "evil" ∉ dictKeys [("fltr_a", PyVal.vStr "v")] := by
  refine ⟨rfl, by decide, by decide⟩

/-- Witness for C7 at a concrete clean input. -/
theorem placeholders_bound_witness :
    "fltr_a" ∈ dictKeys [("fltr_a", PyVal.vStr "v")] :=
  placeholders_bound.1 none none none none [("a", .scalar (.vStr "v"))]
    ⟨[("fltr_a", .vStr "v")], "1=1 AND a=%(fltr_a)s"⟩
    trivial trivial
    (by
      intro p hp
      simp at hp
      rw [hp]
      exact ⟨⟨by decide, by decide⟩, fun hx => absurd hx (by decide)⟩)
    rfl "fltr_a" (by decide)

end Porm
